import Mathlib
/-!
Shallow embedding of the process scheduler in `src/main.go`: the data model
(`Process`, `TimeSlice`, schedule rows), the three scheduling algorithms
(`FCFSSchedule`, `SJFSchedule`, `SJFPrioritySchedule` with its
`container/heap` min-heap), and the aggregate computations, together with
theorems settling the specification claims.
Go `int64` values are modelled as unbounded `Int`; the only place the
machine width is observable on the inputs the claims range over is the
`math.MaxInt64` sentinel used by the SJF selection scan, which is kept
literally as `2 ^ 63 - 1`.
-/

/-- Mirrors Go struct `Process` (fields ProcessID, ArrivalTime,
BurstDuration, Priority, all int64). -/
structure Process where
  processID : Int
  arrivalTime : Int
  burstDuration : Int
  priority : Int
deriving DecidableEq, Repr, Inhabited

/-- Mirrors Go struct `TimeSlice` (fields PID, Start, Stop). -/
structure TimeSlice where
  pid : Int
  start : Int
  stop : Int
deriving DecidableEq, Repr, Inhabited

/-- One row of the schedule table: in Go a `[]string` of the printed
integers (id, priority, burst, arrival, wait, turnaround, completion). -/
structure ScheduleRow where
  pid : Int
  priority : Int
  burst : Int
  arrival : Int
  wait : Int
  turnaround : Int
  completion : Int
deriving DecidableEq, Repr, Inhabited

/-- Go slice read `l[i]` (with a default, used only in-bounds by the code). -/
def getL (d : α) : List α → Nat → α
  | [], _ => d
  | a :: _, 0 => a
  | _ :: l, n + 1 => getL d l n

/-- Go slice write `l[i] = a` (no-op out of bounds, used only in-bounds). -/
def setL : List α → Nat → α → List α
  | [], _, _ => []
  | _ :: l, 0, a => a :: l
  | b :: l, n + 1, a => b :: setL l n a

def getP (l : List Process) (i : Nat) : Process := getL default l i

def getI (l : List Int) (i : Nat) : Int := getL 0 l i

def lastSlice (g : List TimeSlice) : TimeSlice := g.getLast?.getD default

/-- `sort.Slice(processes, func(i, j) { ArrivalTime[i] < ArrivalTime[j] })`:
the in-place ascending sort by arrival time performed by SJF and Priority. -/
def sortByArrival (ps : List Process) : List Process :=
  List.insertionSort (fun a b => a.arrivalTime ≤ b.arrivalTime) ps

/-- The mutable locals of `FCFSSchedule`'s loop plus its outputs. -/
structure FCFSState where
  serviceTime : Int
  waitingTime : Int
  totalWait : Int
  totalTurnaround : Int
  lastCompletionTime : Int
  schedule : List ScheduleRow
  gantt : List TimeSlice
deriving DecidableEq, Repr

/-- One iteration of the FCFS loop body (src/main.go lines 81-111).  Note
the wait is only recomputed when `ArrivalTime > 0`, with no clamping. -/
def fcfsStep (st : FCFSState) (p : Process) : FCFSState :=
  let waitingTime := if p.arrivalTime > 0 then st.serviceTime - p.arrivalTime else st.waitingTime
  let start := waitingTime + p.arrivalTime
  let turnaround := p.burstDuration + waitingTime
  let completion := p.burstDuration + p.arrivalTime + waitingTime
  let serviceTime := st.serviceTime + p.burstDuration
  { serviceTime := serviceTime
    waitingTime := waitingTime
    totalWait := st.totalWait + waitingTime
    totalTurnaround := st.totalTurnaround + turnaround
    lastCompletionTime := completion
    schedule := st.schedule ++
      [⟨p.processID, p.priority, p.burstDuration, p.arrivalTime, waitingTime, turnaround, completion⟩]
    gantt := st.gantt ++ [⟨p.processID, start, serviceTime⟩] }

def fcfsLoop (st : FCFSState) : List Process → FCFSState
  | [] => st
  | p :: ps => fcfsLoop (fcfsStep st p) ps

def FCFSSchedule (ps : List Process) : FCFSState :=
  fcfsLoop ⟨0, 0, 0, 0, 0, [], []⟩ ps

/-- `aveThroughput := count / lastCompletionTime` of `FCFSSchedule`. -/
def fcfsThroughput (ps : List Process) : ℚ :=
  (ps.length : ℚ) / ((FCFSSchedule ps).lastCompletionTime : ℚ)

/-- `true` iff every row of the table reports a nonnegative wait. -/
def rowsWaitsNonneg (rows : List ScheduleRow) : Bool :=
  rows.all (fun r => 0 ≤ r.wait)

/-- Largest CompletionTime appearing in a list of rows (0 if none). -/
def maxCompletion (rows : List ScheduleRow) : Int :=
  rows.foldl (fun a r => max a r.completion) 0

/-- Sum of the burst durations of a batch (the running `serviceTime`). -/
def sumBursts : List Process → Int
  | [] => 0
  | p :: l => p.burstDuration + sumBursts l

/-- `int64(math.MaxInt64)`, the initial value of `minRemainTime`. -/
def sentinel : Int := 2 ^ 63 - 1

/-- The mutable locals of `SJFSchedule`'s simulation loop.  `schedule`
holds `none` for rows not yet finalized (`nil` in Go). -/
structure SJFState where
  currentIndex : Nat
  currentTime : Int
  lastCompletionTime : Int
  schedule : List (Option ScheduleRow)
  gantt : List TimeSlice
  remaining : List Int
  waiting : List Int
  numCompleted : Nat
deriving DecidableEq, Repr

/-- The selection scan of src/main.go lines 150-156: running over the
indices in order, keep `(minRemainTime, currentIndex)`, replacing the pair
whenever `ArrivalTime <= currentTime && remainingTime[i] < minRemainTime
&& remainingTime[i] > 0`. -/
def scanIdx (ps : List Process) (rem : List Int) (ct : Int) :
    List Nat → Int × Nat → Int × Nat
  | [], acc => acc
  | i :: is, acc =>
    if (getP ps i).arrivalTime ≤ ct ∧ getI rem i < acc.1 ∧ 0 < getI rem i then
      scanIdx ps rem ct is (getI rem i, i)
    else
      scanIdx ps rem ct is acc

/-- Assign `gantt[len(gantt)-1].Stop = stop` (the list is never empty at
the call site, src/main.go line 177). -/
def setLastStop : List TimeSlice → Int → List TimeSlice
  | [], _ => []
  | [s], v => [{ s with stop := v }]
  | s :: ss, v => s :: setLastStop ss v

/-- The `(minRemainTime, currentIndex)` pair computed by the scan of
src/main.go lines 150-156 (`minRemainTime` starts at MaxInt64 and
`currentIndex` keeps its previous value when nothing is found). -/
def sjfSel (ps : List Process) (st : SJFState) : Int × Nat :=
  scanIdx ps st.remaining st.currentTime (List.range ps.length) (sentinel, st.currentIndex)

/-- The row finalized when the process at index `ci` completes at time
`st.currentTime + 1` (the clamped wait and the derived turnaround and
completion of src/main.go lines 179-197). -/
def sjfFinalRow (ps : List Process) (st : SJFState) (ci : Nat) : ScheduleRow :=
  let p := getP ps ci
  let stop := st.currentTime + 1
  let w0 := stop - p.burstDuration - p.arrivalTime
  let w := if w0 < 0 then 0 else w0
  ⟨p.processID, p.priority, p.burstDuration, p.arrivalTime, w, w + p.burstDuration,
    p.burstDuration + p.arrivalTime + w⟩

/-- One iteration of the SJF loop body (src/main.go lines 148-199). -/
def sjfStep (ps : List Process) (st : SJFState) : SJFState :=
  let sel := sjfSel ps st
  if sel.1 = sentinel then
    { st with currentTime := (getP ps st.numCompleted).arrivalTime, currentIndex := sel.2 }
  else
    let ci := sel.2
    let p := getP ps ci
    let gantt1 :=
      if st.gantt = [] ∨ (lastSlice st.gantt).pid ≠ p.processID then
        st.gantt ++ [⟨p.processID, st.currentTime, 0⟩]
      else st.gantt
    let remaining1 := setL st.remaining ci (getI st.remaining ci - 1)
    let ct1 := st.currentTime + 1
    if getI remaining1 ci = 0 then
      let row := sjfFinalRow ps st ci
      { currentIndex := ci
        currentTime := ct1
        lastCompletionTime :=
          if st.lastCompletionTime < row.completion then row.completion
          else st.lastCompletionTime
        schedule := setL st.schedule ci (some row)
        gantt := setLastStop gantt1 ct1
        remaining := remaining1
        waiting := setL st.waiting ci row.wait
        numCompleted := st.numCompleted + 1 }
    else
      { st with currentIndex := ci, currentTime := ct1, gantt := gantt1, remaining := remaining1 }

def sjfInit (ps : List Process) : SJFState :=
  { currentIndex := 0
    currentTime := 0
    lastCompletionTime := 0
    schedule := List.replicate ps.length none
    gantt := []
    remaining := ps.map (·.burstDuration)
    waiting := List.replicate ps.length 0
    numCompleted := 0 }

/-- `for numOfCompletedProcesses < totalProcessCount { ... }`, cut off by
fuel (`none` = fuel exhausted before the loop finished). -/
def sjfLoop (ps : List Process) : Nat → SJFState → Option SJFState
  | 0, st => if st.numCompleted < ps.length then none else some st
  | fuel + 1, st =>
    if st.numCompleted < ps.length then sjfLoop ps fuel (sjfStep ps st) else some st

/-- `SJFSchedule`: sort the caller's batch by arrival time in place, then
simulate.  Returns the (mutated) batch together with the final state. -/
def SJFSchedule (ps0 : List Process) (fuel : Nat) : Option (List Process × SJFState) :=
  let ps := sortByArrival ps0
  (sjfLoop ps fuel (sjfInit ps)).map (fun st => (ps, st))

/-- The finalized rows of the SJF table, in index order. -/
def sjfRows (st : SJFState) : List ScheduleRow := st.schedule.filterMap id

def sjfRowsRun (ps0 : List Process) (fuel : Nat) : Option (List ScheduleRow) :=
  (SJFSchedule ps0 fuel).map (fun r => sjfRows r.2)

def sjfGanttRun (ps0 : List Process) (fuel : Nat) : Option (List TimeSlice) :=
  (SJFSchedule ps0 fuel).map (fun r => r.2.gantt)

/-- `aveThroughput := totalProcessCount / lastCompletionTime` of SJF. -/
def sjfThroughput (ps0 : List Process) (st : SJFState) : ℚ :=
  ((sortByArrival ps0).length : ℚ) / (st.lastCompletionTime : ℚ)

/-- `IntHeap.Less`: compare by Priority (lower value = higher priority). -/
def hLess (a b : Process) : Bool := a.priority < b.priority

/-- `h.Swap(i, j)` on the backing slice. -/
def swapL (l : List Process) (i j : Nat) : List Process :=
  setL (setL l i (getP l j)) j (getP l i)

/-- `container/heap`'s sift-up loop.  The first argument is structural
fuel; the index strictly decreases each pass, so fuel `j + 1` never runs
out and `heapUp` below is exactly Go's `up(h, j)`. -/
def heapUpFuel : Nat → List Process → Nat → List Process
  | 0, h, _ => h
  | _ + 1, h, 0 => h
  | fuel + 1, h, j + 1 =>
    let i := j / 2
    if hLess (getP h (j + 1)) (getP h i) then heapUpFuel fuel (swapL h i (j + 1)) i else h

def heapUp (h : List Process) (j : Nat) : List Process := heapUpFuel (j + 1) h j

/-- `container/heap`'s sift-down loop from index `i`, heap size `n`; the
index strictly increases and the loop stops once `2*i+1 >= n`, so fuel `n`
never runs out and `heapDown` below is exactly Go's `down(h, i, n)`. -/
def heapDownFuel : Nat → List Process → Nat → Nat → List Process
  | 0, h, _, _ => h
  | fuel + 1, h, i, n =>
    let j1 := 2 * i + 1
    if j1 < n then
      let j := if j1 + 1 < n ∧ hLess (getP h (j1 + 1)) (getP h j1) then j1 + 1 else j1
      if hLess (getP h j) (getP h i) then heapDownFuel fuel (swapL h i j) j n else h
    else h

def heapDown (h : List Process) (i n : Nat) : List Process := heapDownFuel n h i n

/-- `heap.Push`: append, then sift up from the last index. -/
def heapPush (h : List Process) (x : Process) : List Process :=
  heapUp (h ++ [x]) (h.length)

/-- `heap.Pop`: swap root and last, sift the root down over the shortened
heap, return the old last slot.  `none` models the index-out-of-range
panic Go raises when the heap is empty. -/
def heapPop (h : List Process) : Option (Process × List Process) :=
  match h with
  | [] => none
  | _ :: _ =>
    let n := h.length - 1
    let h2 := heapDown (swapL h 0 n) 0 n
    some (getP h2 n, h2.dropLast)

/-- The mutable locals of `SJFPrioritySchedule`'s simulation loop. -/
structure PState where
  currentTime : Int
  insertedIdx : Nat
  heap : List Process
  turnAround : List Int
  waiting : List Int
  gantt : List TimeSlice
  lastCompletionTime : Int
deriving DecidableEq, Repr

/-- `processesMapIndex[pid]`: the Go map assigns indices in order, so a
duplicate ProcessID keeps the last index; a missing key reads 0. -/
def mapIndex (ps : List Process) (pid : Int) : Nat :=
  (List.range ps.length).foldl (fun acc i => if (getP ps i).processID = pid then i else acc) 0

/-- The inner `for insertedProcessIdx < total && arrival == currentTime`
push loop (src/main.go lines 257-260), with structural fuel;
`insertedIdx` grows by one per pass, so fuel `ps.length - insertedIdx`
never runs out and `pushArrivals` below is exactly the Go loop. -/
def pushArrivalsFuel (ps : List Process) : Nat → PState → PState
  | 0, st => st
  | fuel + 1, st =>
    if st.insertedIdx < ps.length ∧ (getP ps st.insertedIdx).arrivalTime = st.currentTime then
      pushArrivalsFuel ps fuel
        { st with
          heap := heapPush st.heap (getP ps st.insertedIdx)
          insertedIdx := st.insertedIdx + 1 }
    else st

def pushArrivals (ps : List Process) (st : PState) : PState :=
  pushArrivalsFuel ps (ps.length - st.insertedIdx) st

/-- The tail of an iteration after a successful pop (src/main.go lines
270-297): decrement the burst, extend or open a TimeSlice, advance time,
then either finalize the process or push it back. -/
def prioTick (ps : List Process) (st : PState) (p0 : Process) (h1 : List Process) : PState :=
  let p : Process := { p0 with burstDuration := p0.burstDuration - 1 }
  let gantt :=
    if st.gantt = [] ∨ (lastSlice st.gantt).pid ≠ p.processID then
      st.gantt ++ [⟨p.processID, st.currentTime, st.currentTime + p.burstDuration + 1⟩]
    else st.gantt
  let ct := st.currentTime + 1
  if p.burstDuration = 0 then
    let idx := mapIndex ps p.processID
    let ta := ct - p.arrivalTime
    let wt := ta - p.burstDuration - p.arrivalTime
    { st with
      currentTime := ct
      heap := h1
      gantt := gantt
      turnAround := setL st.turnAround idx ta
      waiting := setL st.waiting idx wt
      lastCompletionTime := if st.lastCompletionTime < ct then ct else st.lastCompletionTime }
  else
    { st with
      currentTime := ct
      heap := heapPush h1 p
      gantt := gantt
      lastCompletionTime := if st.lastCompletionTime < ct then ct else st.lastCompletionTime }

/-- Result of one iteration of the outer `for { ... }` loop. -/
inductive PIter where
  | cont (st : PState)
  | done (st : PState)
  | crashed (st : PState)
deriving DecidableEq, Repr

/-- One iteration of the outer loop (src/main.go lines 256-299).  When the
heap is empty and uninserted processes remain, the code sets `currentTime`
to the next arrival and then still calls `heap.Pop` on the empty heap,
which panics: that is the `crashed` case. -/
def prioIter (ps : List Process) (st0 : PState) : PIter :=
  let st1 := pushArrivals ps st0
  if st1.heap.isEmpty ∧ ¬ st1.insertedIdx < ps.length then
    .done st1
  else
    let st2 :=
      if st1.heap.isEmpty then
        { st1 with currentTime := (getP ps st1.insertedIdx).arrivalTime }
      else st1
    match heapPop st2.heap with
    | none => .crashed st2
    | some (p, h1) => .cont (prioTick ps st2 p h1)

/-- Outcome of the whole Priority simulation loop. -/
inductive POutcome where
  | ok (st : PState)
  | crashed (st : PState)
deriving DecidableEq, Repr

def prioLoop (ps : List Process) : Nat → PState → Option POutcome
  | 0, _ => none
  | fuel + 1, st =>
    match prioIter ps st with
    | .done s => some (.ok s)
    | .crashed s => some (.crashed s)
    | .cont s => prioLoop ps fuel s

def prioInit (ps : List Process) : PState :=
  { currentTime := (getP ps 0).arrivalTime
    insertedIdx := 0
    heap := []
    turnAround := List.replicate ps.length 0
    waiting := List.replicate ps.length 0
    gantt := []
    lastCompletionTime := 0 }

/-- `SJFPrioritySchedule`: sort the caller's batch by arrival in place,
then run the heap-driven simulation.  An empty batch panics in Go at
`processes[0].ArrivalTime`, modelled as an immediate crash. -/
def SJFPrioritySchedule (ps0 : List Process) (fuel : Nat) : Option (List Process × POutcome) :=
  let ps := sortByArrival ps0
  if ps.isEmpty then some (ps, .crashed (prioInit ps))
  else (prioLoop ps fuel (prioInit ps)).map (fun o => (ps, o))

/-- The output loop of src/main.go lines 301-315: build the rows and fold
the reported completions into `lastCompletionTime`. -/
def prioRowsLoop (waiting turnAround : List Int) :
    Nat → List Process → Int → List ScheduleRow × Int
  | _, [], last => ([], last)
  | i, p :: rest, last =>
    let completion := p.arrivalTime + p.burstDuration + getI waiting i
    let last1 := if last < completion then completion else last
    let row : ScheduleRow :=
      ⟨p.processID, p.priority, p.burstDuration, p.arrivalTime,
        getI waiting i, getI turnAround i, completion⟩
    let (rows, lastF) := prioRowsLoop waiting turnAround (i + 1) rest last1
    (row :: rows, lastF)

/-- Rows of the Priority table (only produced when the run did not panic). -/
def prioRowsRun (ps0 : List Process) (fuel : Nat) : Option (List ScheduleRow) :=
  match SJFPrioritySchedule ps0 fuel with
  | some (ps, .ok st) => some (prioRowsLoop st.waiting st.turnAround 0 ps st.lastCompletionTime).1
  | _ => none

def prioGanttRun (ps0 : List Process) (fuel : Nat) : Option (List TimeSlice) :=
  match SJFPrioritySchedule ps0 fuel with
  | some (_, .ok st) => some st.gantt
  | _ => none

/-- `true` iff the Priority run ended in the empty-heap pop panic. -/
def prioCrashes (ps0 : List Process) (fuel : Nat) : Bool :=
  match SJFPrioritySchedule ps0 fuel with
  | some (_, .crashed _) => true
  | _ => false

/-- Round-Robin (src/main.go lines 334-336): prints only the title; no
rows, no timeline, and no mutation of the batch. -/
def RRSchedule (ps : List Process) : List ScheduleRow × List TimeSlice × List Process :=
  ([], [], ps)

/-- `true` iff the row satisfies the spec's ScheduleRow invariant. -/
def rowInvariantOK (r : ScheduleRow) : Bool :=
  decide (r.turnaround = r.burst + r.wait ∧ r.completion = r.arrival + r.turnaround)

/-- `true` iff every slice of the timeline has `Start ≤ Stop`. -/
def sliceStartLeStop (g : List TimeSlice) : Bool := g.all (fun s => s.start ≤ s.stop)

/-- The sequence of `waitingTime` values FCFS assigns, starting from a
given `serviceTime` and carried wait. -/
def fcfsWaits (serviceTime w : Int) : List Process → List Int
  | [] => []
  | p :: rest =>
    let w1 := if p.arrivalTime > 0 then serviceTime - p.arrivalTime else w
    w1 :: fcfsWaits (serviceTime + p.burstDuration) w1 rest

/-- Process `i` is eligible to run: in bounds, arrived, and unfinished. -/
def eligible (ps : List Process) (rem : List Int) (ct : Int) (i : Nat) : Prop :=
  i < ps.length ∧ (getP ps i).arrivalTime ≤ ct ∧ 0 < getI rem i

instance (ps : List Process) (rem : List Int) (ct : Int) (i : Nat) :
    Decidable (eligible ps rem ct i) := by
  unfold eligible; infer_instance

/-- Number of zero entries (completed processes) of the remaining-time
slice. -/
def countZeros : List Int → Nat
  | [] => 0
  | r :: l => (if r = 0 then 1 else 0) + countZeros l

/-- The loop invariant of the SJF simulation. -/
def SJFInv (ps : List Process) (st : SJFState) : Prop :=
  st.remaining.length = ps.length ∧
  (∀ i, i < ps.length → getI st.remaining i ≤ (getP ps i).burstDuration) ∧
  (∀ i, i < ps.length → 0 ≤ getI st.remaining i) ∧
  (∀ i, i < ps.length → getI st.remaining i = 0 → (getP ps i).arrivalTime ≤ st.currentTime) ∧
  st.numCompleted = countZeros st.remaining

/-- States reachable by the SJF loop from the initial state. -/
inductive SJFReach (ps : List Process) : SJFState → Prop
  | init : SJFReach ps (sjfInit ps)
  | step (st : SJFState) : SJFReach ps st → st.numCompleted < ps.length →
      SJFReach ps (sjfStep ps st)

def getO (l : List (Option ScheduleRow)) (i : Nat) : Option ScheduleRow := getL none l i

/-- The parts of the SJF state that determine the reported throughput:
row slots and remaining times line up, a slot is filled exactly when its
process has finished, every reported completion is positive and bounded
by `lastCompletionTime`, and `lastCompletionTime` is 0 or attained. -/
def SJFRowsInv (ps : List Process) (st : SJFState) : Prop :=
  st.schedule.length = ps.length ∧
  st.remaining.length = ps.length ∧
  (∀ i, i < ps.length → ((getO st.schedule i).isSome ↔ getI st.remaining i = 0)) ∧
  (∀ i r, i < ps.length → getO st.schedule i = some r →
    r.completion ≤ st.lastCompletionTime ∧ 0 < r.completion) ∧
  (st.lastCompletionTime = 0 ∨
    ∃ i r, i < ps.length ∧ getO st.schedule i = some r ∧
      r.completion = st.lastCompletionTime)

def sumToNat : List Int → Nat
  | [] => 0
  | r :: l => r.toNat + sumToNat l

/-- Total burst time of a batch, as the natural-number work bound. -/
def totalBurstToNat (ps : List Process) : Nat :=
  sumToNat (ps.map (fun p => p.burstDuration))

/-- `true` iff some process is eligible to run. -/
def eligExists (ps : List Process) (st : SJFState) : Bool :=
  (List.range ps.length).any (fun i => decide (eligible ps st.remaining st.currentTime i))

/-- Termination measure of the SJF loop: twice the remaining work, plus
one if the next iteration must jump. -/
def sjfMeasure (ps : List Process) (st : SJFState) : Nat :=
  2 * sumToNat st.remaining + (if eligExists ps st then 0 else 1)

def sumBurstToNat : List Process → Nat
  | [] => 0
  | p :: l => p.burstDuration.toNat + sumBurstToNat l

/-- Every element of the heap still needs at least one unit of work. -/
def heapAllPos (h : List Process) : Prop := ∀ q ∈ h, 1 ≤ q.burstDuration

/-- Termination measure of the Priority loop: work still owed by the heap
plus work owed by the not-yet-inserted processes. -/
def prioMeasure (ps : List Process) (st : PState) : Nat :=
  sumBurstToNat st.heap + sumBurstToNat (ps.drop st.insertedIdx)

/-- C1: the claimed per-row invariant TurnaroundTime = BurstDuration +
WaitTime and CompletionTime = ArrivalTime + TurnaroundTime fails in the
Priority scheduler: on the single process (id 1, arrival 0, burst 2) the
code reports wait 2, turnaround 2, completion 4, because the wait is
computed from the already-decremented (zero) burst at completion
(src/main.go line 288); here turnaround 2 ≠ burst 2 + wait 2 and
completion 4 ≠ arrival 0 + turnaround 2. -/
theorem prio_row_invariant_violation :
    prioRowsRun [⟨1, 0, 2, 0⟩] 10 = some [⟨1, 0, 2, 0, 2, 2, 4⟩] ∧
    (prioRowsRun [⟨1, 0, 2, 0⟩] 10).map (fun rows => rows.all rowInvariantOK) = some false := by
  decide

/-- C2: false for the code as written.  On the batch [(id 1, arrival 0,
burst 1), (id 2, arrival 5, burst 1)] the heap empties at time 1 while
process 2 has not arrived; the code sets currentTime to 5 and then, with
no `continue`, immediately pops the still-empty heap (src/main.go lines
262-270), which panics inside `container/heap` — the run does not
complete. -/
theorem prio_empty_heap_pop_crash :
    prioCrashes [⟨1, 0, 1, 0⟩, ⟨2, 5, 1, 0⟩] 20 = true := by decide

/-- C5: on the batch {(1, burst 4, priority 2, arrival 0), (2, burst 2,
priority 1, arrival 0)} the Gantt timeline does show process 2 running
alone over [0,2) and process 1 finishing at 6, but the reported rows give
process 2 CompletionTime 4 and process 1 CompletionTime 10 (not 2 and 6),
again because the wait is computed from the zeroed burst. -/
theorem prio_example_completions :
    prioRowsRun [⟨1, 0, 4, 2⟩, ⟨2, 0, 2, 1⟩] 20 =
      some [⟨1, 2, 4, 0, 6, 6, 10⟩, ⟨2, 1, 2, 0, 2, 2, 4⟩] ∧
    prioGanttRun [⟨1, 0, 4, 2⟩, ⟨2, 0, 2, 1⟩] 20 = some [⟨2, 0, 2⟩, ⟨1, 2, 6⟩] := by decide

/-- C7: false for the code as written.  In SJF a preempted process's
TimeSlice never has its Stop assigned (it is only written when the slice's
process completes, src/main.go line 177), so on [(1, arrival 0, burst 1),
(2, arrival 1, burst 5), (3, arrival 3, burst 1)] the slice for process 2
is {Start 1, Stop 0} with Start > Stop, and it does not cover the
interval during which process 2 held the CPU. -/
theorem sjf_gantt_start_gt_stop :
    sjfGanttRun [⟨1, 0, 1, 0⟩, ⟨2, 1, 5, 0⟩, ⟨3, 3, 1, 0⟩] 30 =
      some [⟨1, 0, 1⟩, ⟨2, 1, 0⟩, ⟨3, 3, 4⟩, ⟨2, 4, 7⟩] ∧
    (sjfGanttRun [⟨1, 0, 1, 0⟩, ⟨2, 1, 5, 0⟩, ⟨3, 3, 1, 0⟩] 30).map sliceStartLeStop =
      some false := by decide

/-- C3 counterexample: FCFS applies no clamping, so the single process
(id 1, arrival 1, burst 1) gets WaitTime = 0 - 1 = -1 < 0. -/
theorem fcfs_negative_wait_cx :
    (FCFSSchedule [⟨1, 1, 1, 0⟩]).schedule = [⟨1, 0, 1, 1, -1, 0, 1⟩] ∧
    rowsWaitsNonneg (FCFSSchedule [⟨1, 1, 1, 0⟩]).schedule = false := by decide

/-- C4 counterexample: for the single process (id 1, arrival 2, burst 1)
FCFS reports wait = serviceTime - arrival = -2, not the claimed
max(0, serviceTime - arrival) = 0: there is no clamping in the code
(src/main.go line 83). -/
theorem fcfs_wait_no_clamp_cx :
    (FCFSSchedule [⟨1, 2, 1, 0⟩]).schedule = [⟨1, 0, 1, 2, -2, -1, 1⟩] ∧
    ¬ ((-2 : Int) = max 0 (sumBursts [] - 2)) := by decide

/-- C8 counterexample: on [(1, burst 5, arrival 0), (2, burst 2, arrival
0)] FCFS reports throughput 2 / 2 = 1, because `lastCompletionTime` is
overwritten with the final row's completion (2) rather than the last
completion across all processes (5 as reported, 7 in simulated time). -/
theorem fcfs_throughput_not_max_cx :
    fcfsThroughput [⟨1, 0, 5, 0⟩, ⟨2, 0, 2, 0⟩] = 1 ∧
    maxCompletion (FCFSSchedule [⟨1, 0, 5, 0⟩, ⟨2, 0, 2, 0⟩]).schedule = 5 ∧
    ¬ ((1 : ℚ) = 2 / 5) ∧ ¬ ((1 : ℚ) = 2 / 7) := by
  refine ⟨?_, by decide, by norm_num, by norm_num⟩
  have h : (FCFSSchedule [⟨1, 0, 5, 0⟩, ⟨2, 0, 2, 0⟩]).lastCompletionTime = 2 := by decide
  rw [fcfsThroughput, h]
  norm_num

theorem sjf_batch_eq (ps0 : List Process) (fuel : Nat) (l : List Process) (st : SJFState)
    (h : SJFSchedule ps0 fuel = some (l, st)) : l = sortByArrival ps0 := by
  unfold SJFSchedule at h
  dsimp only at h
  cases hl : sjfLoop (sortByArrival ps0) fuel (sjfInit (sortByArrival ps0)) with
  | none => rw [hl] at h; cases h
  | some s => rw [hl] at h; cases h; rfl

theorem prio_batch_eq (ps0 : List Process) (fuel : Nat) (l : List Process) (o : POutcome)
    (h : SJFPrioritySchedule ps0 fuel = some (l, o)) : l = sortByArrival ps0 := by
  unfold SJFPrioritySchedule at h
  dsimp only at h
  by_cases he : (sortByArrival ps0).isEmpty = true
  · rw [if_pos he] at h; cases h; rfl
  · rw [if_neg he] at h
    cases hl : prioLoop (sortByArrival ps0) fuel (prioInit (sortByArrival ps0)) with
    | none => rw [hl] at h; cases h
    | some s => rw [hl] at h; cases h; rfl

theorem fcfsLoop_schedule_map (ps : List Process) :
    ∀ st : FCFSState,
      (fcfsLoop st ps).schedule.map (fun r => Process.mk r.pid r.arrival r.burst r.priority) =
        st.schedule.map (fun r => Process.mk r.pid r.arrival r.burst r.priority) ++ ps := by
  induction ps with
  | nil => intro st; simp [fcfsLoop]
  | cons p ps ih =>
    intro st
    rw [fcfsLoop, ih]
    simp [fcfsStep]

/-- C9: SJF and Priority reorder the caller's batch in place: both expose
the batch `sortByArrival ps0`, which is sorted ascending by ArrivalTime
and is a permutation of the input; FCFS produces its rows in input order
and leaves the batch unchanged (its rows project back to exactly the
input batch). -/
theorem reorder_side_effect (ps0 : List Process) :
    (∀ fuel l st, SJFSchedule ps0 fuel = some (l, st) → l = sortByArrival ps0) ∧
    (∀ fuel l o, SJFPrioritySchedule ps0 fuel = some (l, o) → l = sortByArrival ps0) ∧
    List.Pairwise (fun a b => a.arrivalTime ≤ b.arrivalTime) (sortByArrival ps0) ∧
    (sortByArrival ps0).Perm ps0 ∧
    (FCFSSchedule ps0).schedule.map (fun r => Process.mk r.pid r.arrival r.burst r.priority) =
      ps0 := by
  refine ⟨?_, ?_, ?_, ?_, ?_⟩
  · exact fun fuel l st h => sjf_batch_eq ps0 fuel l st h
  · exact fun fuel l o h => prio_batch_eq ps0 fuel l o h
  · haveI : IsTotal Process (fun a b => a.arrivalTime ≤ b.arrivalTime) :=
      ⟨fun a b => le_total a.arrivalTime b.arrivalTime⟩
    haveI : IsTrans Process (fun a b => a.arrivalTime ≤ b.arrivalTime) :=
      ⟨fun _ _ _ hab hbc => le_trans hab hbc⟩
    exact List.sorted_insertionSort _ ps0
  · exact List.perm_insertionSort _ ps0
  · have h := fcfsLoop_schedule_map ps0 ⟨0, 0, 0, 0, 0, [], []⟩
    simpa [FCFSSchedule] using h

theorem fcfsLoop_waits (ps : List Process) :
    ∀ st : FCFSState,
      (fcfsLoop st ps).schedule.map (fun r => r.wait) =
        st.schedule.map (fun r => r.wait) ++ fcfsWaits st.serviceTime st.waitingTime ps := by
  induction ps with
  | nil => intro st; simp [fcfsLoop, fcfsWaits]
  | cons p ps ih =>
    intro st
    rw [fcfsLoop, ih]
    by_cases h : p.arrivalTime > 0 <;> simp [fcfsStep, fcfsWaits, h]

theorem fcfsWaits_length (serviceTime w : Int) (ps : List Process) :
    (fcfsWaits serviceTime w ps).length = ps.length := by
  induction ps generalizing serviceTime w with
  | nil => rfl
  | cons p ps ih => simp [fcfsWaits, ih]

theorem fcfsWaits_get (ps : List Process) :
    ∀ (serviceTime w : Int) (i : Nat), i < ps.length →
      getI (fcfsWaits serviceTime w ps) i =
        if (getP ps i).arrivalTime > 0 then
          serviceTime + sumBursts (ps.take i) - (getP ps i).arrivalTime
        else if i = 0 then w
        else getI (fcfsWaits serviceTime w ps) (i - 1) := by
  induction ps with
  | nil => intro _ _ i hi; cases hi
  | cons p rest ih =>
    intro serviceTime w i hi
    match i with
    | 0 =>
      by_cases h : p.arrivalTime > 0 <;>
        simp [fcfsWaits, getI, getL, getP, sumBursts, h]
    | (j : Nat) + 1 =>
      have hj : j < rest.length := by simpa using Nat.lt_of_succ_lt_succ hi
      have hrec := ih (serviceTime + p.burstDuration)
        (if p.arrivalTime > 0 then serviceTime - p.arrivalTime else w) j hj
      show getI (fcfsWaits _ _ (p :: rest)) (j + 1) = _
      rw [fcfsWaits]
      have hgl : ∀ (l : List Int) (a : Int) (k : Nat), getI (a :: l) (k + 1) = getI l k := by
        intro l a k; rfl
      rw [hgl]
      rw [hrec]
      have hgp : getP (p :: rest) (j + 1) = getP rest j := rfl
      have hsum : sumBursts ((p :: rest).take (j + 1)) =
          p.burstDuration + sumBursts (rest.take j) := by
        simp [sumBursts]
      rw [hgp, hsum]
      match j with
      | 0 =>
        by_cases h : (getP rest 0).arrivalTime > 0 <;> simp [fcfsWaits, getI, getL, h] <;> ring_nf
      | (k : Nat) + 1 =>
        by_cases h : (getP rest (k + 1)).arrivalTime > 0
        · simp only [if_pos h]
          ring_nf
        · simp only [if_neg h]
          simp [hgl]

theorem fcfs_schedule_length (ps : List Process) :
    (FCFSSchedule ps).schedule.length = ps.length := by
  have h := congrArg List.length (fcfsLoop_waits ps ⟨0, 0, 0, 0, 0, [], []⟩)
  simpa [FCFSSchedule, fcfsWaits_length] using h

theorem getI_map_wait (l : List ScheduleRow) :
    ∀ i, i < l.length → getI (l.map (fun r => r.wait)) i = (getL default l i).wait := by
  induction l with
  | nil => intro i hi; cases hi
  | cons r rest ih =>
    intro i hi
    match i with
    | 0 => rfl
    | (j : Nat) + 1 => exact ih j (by simpa using Nat.lt_of_succ_lt_succ hi)

/-- C4 (amended): in FCFS, for process i in input order, when
ArrivalTime > 0 the wait equals serviceTime - arrivalTime with NO
clamping (it may be negative), where serviceTime is the sum of the burst
durations of the processes served before it; when ArrivalTime = 0 the
wait is not recomputed and carries over the previous iteration's value
(0 for the first process). -/
theorem fcfs_wait_characterization (ps : List Process) (i : Nat) (hi : i < ps.length) :
    (getL default (FCFSSchedule ps).schedule i).wait =
      if (getP ps i).arrivalTime > 0 then
        sumBursts (ps.take i) - (getP ps i).arrivalTime
      else if i = 0 then 0
      else (getL default (FCFSSchedule ps).schedule (i - 1)).wait := by
  have hlen := fcfs_schedule_length ps
  have hmap := fcfsLoop_waits ps ⟨0, 0, 0, 0, 0, [], []⟩
  have hw : ∀ j, j < ps.length →
      (getL default (FCFSSchedule ps).schedule j).wait = getI (fcfsWaits 0 0 ps) j := by
    intro j hj
    have := getI_map_wait (FCFSSchedule ps).schedule j (by rw [hlen]; exact hj)
    rw [← this]
    simp only [FCFSSchedule] at hmap ⊢
    rw [hmap]
    rfl
  rw [hw i hi]
  rw [fcfsWaits_get ps 0 0 i hi]
  by_cases h : (getP ps i).arrivalTime > 0
  · simp only [if_pos h]
    ring_nf
  · simp only [if_neg h]
    by_cases h0 : i = 0
    · simp [h0]
    · simp only [if_neg h0]
      have hi1 : i - 1 < ps.length := lt_of_le_of_lt (Nat.sub_le i 1) hi
      rw [hw (i - 1) hi1]

/-- C4 witness: the characterization evaluated at process index 1 of a
concrete two-process batch. -/
theorem fcfs_wait_characterization_witness :
    (getL default (FCFSSchedule [⟨1, 0, 3, 0⟩, ⟨2, 1, 2, 0⟩]).schedule 1).wait =
      if (getP [⟨1, 0, 3, 0⟩, ⟨2, 1, 2, 0⟩] 1).arrivalTime > 0 then
        sumBursts ([⟨1, 0, 3, 0⟩, ⟨2, 1, 2, 0⟩].take 1) -
          (getP [⟨1, 0, 3, 0⟩, ⟨2, 1, 2, 0⟩] 1).arrivalTime
      else if 1 = 0 then 0
      else (getL default (FCFSSchedule [⟨1, 0, 3, 0⟩, ⟨2, 1, 2, 0⟩]).schedule 0).wait :=
  fcfs_wait_characterization [⟨1, 0, 3, 0⟩, ⟨2, 1, 2, 0⟩] 1 (by decide)

theorem mem_setL {α : Type} (l : List α) :
    ∀ (i : Nat) (a x : α), x ∈ setL l i a → x ∈ l ∨ x = a := by
  induction l with
  | nil => intro i a x h; cases h
  | cons b l ih =>
    intro i a x h
    cases i with
    | zero =>
      rw [setL, List.mem_cons] at h
      rcases h with he | h
      · exact Or.inr he
      · exact Or.inl (List.mem_cons_of_mem b h)
    | succ j =>
      rw [setL, List.mem_cons] at h
      rcases h with he | h
      · exact Or.inl (he ▸ List.mem_cons_self b l)
      · rcases ih j a x h with hl | he
        · exact Or.inl (List.mem_cons_of_mem b hl)
        · exact Or.inr he

theorem sjfStep_schedule_cases (ps : List Process) (st : SJFState) :
    (sjfStep ps st).schedule = st.schedule ∨
    ∃ ci row, 0 ≤ ScheduleRow.wait row ∧
      (sjfStep ps st).schedule = setL st.schedule ci (some row) := by
  unfold sjfStep
  dsimp only
  split
  · exact Or.inl rfl
  · split
    · refine Or.inr ⟨_, _, ?_, rfl⟩
      unfold sjfFinalRow
      dsimp only
      split <;> omega
    · exact Or.inl rfl

theorem sjfLoop_waits_nonneg (ps : List Process) :
    ∀ (fuel : Nat) (st st1 : SJFState),
      (∀ r : ScheduleRow, some r ∈ st.schedule → 0 ≤ r.wait) →
      sjfLoop ps fuel st = some st1 →
      ∀ r : ScheduleRow, some r ∈ st1.schedule → 0 ≤ r.wait := by
  intro fuel
  induction fuel with
  | zero =>
    intro st st1 hinv h
    unfold sjfLoop at h
    split at h
    · cases h
    · cases h; exact hinv
  | succ fuel ih =>
    intro st st1 hinv h
    unfold sjfLoop at h
    split at h
    · refine ih (sjfStep ps st) st1 ?_ h
      intro r hr
      rcases sjfStep_schedule_cases ps st with hc | ⟨ci, row, hw, hc⟩
      · exact hinv r (hc ▸ hr)
      · rcases mem_setL st.schedule ci (some row) (some r) (hc ▸ hr) with hm | he
        · exact hinv r hm
        · cases he; exact hw
    · cases h; exact hinv

theorem sjf_run_eq (ps0 : List Process) (fuel : Nat) (l : List Process) (st : SJFState)
    (h : SJFSchedule ps0 fuel = some (l, st)) :
    sjfLoop (sortByArrival ps0) fuel (sjfInit (sortByArrival ps0)) = some st := by
  unfold SJFSchedule at h
  dsimp only at h
  cases hl : sjfLoop (sortByArrival ps0) fuel (sjfInit (sortByArrival ps0)) with
  | none => rw [hl] at h; cases h
  | some s => rw [hl] at h; cases h; rfl

/-- C3 (amended): WaitTime >= 0 holds for every reported row under SJF
(the only policy that clamps); FCFS and Priority can both report negative
waits — FCFS never clamps, and Priority subtracts the arrival from the
turnaround, so a single process with arrival 5 and burst 1 gets wait -4. -/
theorem waits_nonneg_amended :
    (∀ (ps0 : List Process) (fuel : Nat) (l : List Process) (st : SJFState),
      SJFSchedule ps0 fuel = some (l, st) → rowsWaitsNonneg (sjfRows st) = true) ∧
    rowsWaitsNonneg (FCFSSchedule [⟨1, 1, 1, 0⟩]).schedule = false ∧
    (prioRowsRun [⟨1, 5, 1, 0⟩] 10).map rowsWaitsNonneg = some false := by
  refine ⟨?_, by decide, by decide⟩
  intro ps0 fuel l st h
  have hrun := sjf_run_eq ps0 fuel l st h
  have hinit : ∀ r : ScheduleRow, some r ∈ (sjfInit (sortByArrival ps0)).schedule → 0 ≤ r.wait := by
    intro r hr
    have := List.eq_of_mem_replicate hr
    cases this
  have hfin := sjfLoop_waits_nonneg (sortByArrival ps0) fuel _ st hinit hrun
  simp only [rowsWaitsNonneg, sjfRows, List.all_eq_true, decide_eq_true_eq]
  intro r hr
  rcases List.mem_filterMap.mp hr with ⟨a, ha, hae⟩
  cases a with
  | none => cases hae
  | some r2 =>
    have h2 : r2 = r := by simpa using hae
    subst h2
    exact hfin r2 ha

/-- C3 witness: the SJF conjunct applied to a concrete run. -/
theorem waits_nonneg_amended_witness :
    rowsWaitsNonneg (sjfRows (((SJFSchedule [⟨1, 0, 2, 0⟩] 5).getD ([], sjfInit [])).2)) = true :=
  waits_nonneg_amended.1 [⟨1, 0, 2, 0⟩] 5
    ((SJFSchedule [⟨1, 0, 2, 0⟩] 5).getD ([], sjfInit [])).1
    ((SJFSchedule [⟨1, 0, 2, 0⟩] 5).getD ([], sjfInit [])).2 rfl

theorem setL_length {α : Type} (l : List α) :
    ∀ (i : Nat) (a : α), (setL l i a).length = l.length := by
  induction l with
  | nil => intro i a; rfl
  | cons b l ih =>
    intro i a
    cases i with
    | zero => rfl
    | succ j => simp [setL, ih]

theorem getL_setL_same {α : Type} (d : α) (l : List α) :
    ∀ (i : Nat) (a : α), i < l.length → getL d (setL l i a) i = a := by
  induction l with
  | nil => intro i a h; cases h
  | cons b l ih =>
    intro i a h
    cases i with
    | zero => rfl
    | succ j => exact ih j a (Nat.lt_of_succ_lt_succ h)

theorem getL_setL_ne {α : Type} (d : α) (l : List α) :
    ∀ (i j : Nat) (a : α), j ≠ i → getL d (setL l i a) j = getL d l j := by
  induction l with
  | nil => intro i j a _; cases i <;> rfl
  | cons b l ih =>
    intro i j a hne
    cases i with
    | zero =>
      cases j with
      | zero => exact absurd rfl hne
      | succ k => rfl
    | succ i2 =>
      cases j with
      | zero => rfl
      | succ k => exact ih i2 k a (fun he => hne (by rw [he]))

theorem countZeros_le_length (l : List Int) : countZeros l ≤ l.length := by
  induction l with
  | nil => exact Nat.le_refl 0
  | cons r l ih =>
    unfold countZeros
    split <;> simp <;> omega

theorem countZeros_setL (l : List Int) :
    ∀ (i : Nat) (a : Int), i < l.length → getI l i ≠ 0 →
      countZeros (setL l i a) = countZeros l + (if a = 0 then 1 else 0) := by
  induction l with
  | nil => intro i a h; cases h
  | cons r l ih =>
    intro i a hlt hnz
    cases i with
    | zero =>
      have hr : r ≠ 0 := hnz
      unfold setL countZeros
      rw [if_neg hr]
      omega
    | succ j =>
      have hj : j < l.length := Nat.lt_of_succ_lt_succ hlt
      have hnz2 : getI l j ≠ 0 := hnz
      unfold setL countZeros
      rw [ih j a hj hnz2]
      omega

theorem countZeros_all_ne (l : List Int) (h : ∀ m, m < l.length → getI l m ≠ 0) :
    countZeros l = 0 := by
  induction l with
  | nil => rfl
  | cons r l ih =>
    have h0 : r ≠ 0 := h 0 (Nat.succ_pos _)
    unfold countZeros
    rw [if_neg h0, ih (fun m hm => h (m + 1) (Nat.succ_lt_succ hm))]

/-- In a remaining-time slice whose zero set is downward closed, the zero
entries are exactly the first `countZeros` positions. -/
theorem zeros_are_first (l : List Int)
    (hdc : ∀ i j, i ≤ j → j < l.length → getI l j = 0 → getI l i = 0) :
    ∀ k, k < l.length → (getI l k = 0 ↔ k < countZeros l) := by
  induction l with
  | nil => intro k h; cases h
  | cons r l ih =>
    intro k hk
    by_cases hr : r = 0
    · have hdc2 : ∀ i j, i ≤ j → j < l.length → getI l j = 0 → getI l i = 0 := by
        intro i j hij hj hz
        exact hdc (i + 1) (j + 1) (Nat.succ_le_succ hij) (Nat.succ_lt_succ hj) hz
      cases k with
      | zero =>
        unfold countZeros
        rw [if_pos hr]
        simpa using hr
      | succ m =>
        have hm : m < l.length := Nat.lt_of_succ_lt_succ hk
        have := ih hdc2 m hm
        unfold countZeros
        rw [if_pos hr]
        change getI l m = 0 ↔ _
        omega
    · have hall : ∀ m, m < l.length → getI l m ≠ 0 := by
        intro m hm hz
        exact hr (hdc 0 (m + 1) (Nat.zero_le _) (Nat.succ_lt_succ hm) hz)
      have hcz : countZeros (r :: l) = 0 := countZeros_all_ne _ (by
        intro m hm
        cases m with
        | zero => exact hr
        | succ m2 => exact hall m2 (Nat.lt_of_succ_lt_succ hm))
      rw [hcz]
      cases k with
      | zero => simpa using hr
      | succ m =>
        have hm : m < l.length := Nat.lt_of_succ_lt_succ hk
        change getI l m = 0 ↔ _
        constructor
        · intro hz; exact absurd hz (hall m hm)
        · intro h; cases h

/-- Characterization of the Go selection scan: the result bounds every
eligible remaining time from below; if it strictly improved on the
accumulator it names the first eligible index achieving the minimum, and
otherwise it returns the accumulator unchanged. -/
theorem scanIdx_spec (ps : List Process) (rem : List Int) (ct : Int) :
    ∀ (is : List Nat) (acc : Int × Nat), List.Pairwise (fun a b => a < b) is →
      (scanIdx ps rem ct is acc).1 ≤ acc.1 ∧
      (∀ k ∈ is, (getP ps k).arrivalTime ≤ ct → 0 < getI rem k →
        (scanIdx ps rem ct is acc).1 ≤ getI rem k) ∧
      ((scanIdx ps rem ct is acc).1 = acc.1 → scanIdx ps rem ct is acc = acc) ∧
      ((scanIdx ps rem ct is acc).1 < acc.1 →
        (scanIdx ps rem ct is acc).2 ∈ is ∧
        (getP ps (scanIdx ps rem ct is acc).2).arrivalTime ≤ ct ∧
        0 < getI rem (scanIdx ps rem ct is acc).2 ∧
        getI rem (scanIdx ps rem ct is acc).2 = (scanIdx ps rem ct is acc).1 ∧
        (∀ k ∈ is, k < (scanIdx ps rem ct is acc).2 →
          (getP ps k).arrivalTime ≤ ct → 0 < getI rem k →
          (scanIdx ps rem ct is acc).1 < getI rem k)) := by
  intro is
  induction is with
  | nil =>
    intro acc _
    refine ⟨le_refl _, ?_, fun _ => rfl, ?_⟩
    · intro k hk; cases hk
    · intro h; exact absurd h (lt_irrefl _)
  | cons i is ih =>
    intro acc hpw
    have hlt : ∀ k ∈ is, i < k := by
      intro k hk
      exact (List.pairwise_cons.mp hpw).1 k hk
    have hpw2 : List.Pairwise (fun a b => a < b) is := (List.pairwise_cons.mp hpw).2
    by_cases hc : (getP ps i).arrivalTime ≤ ct ∧ getI rem i < acc.1 ∧ 0 < getI rem i
    · rw [scanIdx, if_pos hc]
      obtain ⟨ih1, ih2, ih3, ih4⟩ := ih (getI rem i, i) hpw2
      refine ⟨?_, ?_, ?_, ?_⟩
      · exact le_of_lt (lt_of_le_of_lt ih1 hc.2.1)
      · intro k hk harr hpos
        rcases List.mem_cons.mp hk with he | hm
        · subst he; exact ih1
        · exact ih2 k hm harr hpos
      · intro heq
        exact absurd (lt_of_le_of_lt ih1 hc.2.1) (by rw [heq]; exact lt_irrefl _)
      · intro _
        rcases lt_or_eq_of_le ih1 with hstrict | heq
        · obtain ⟨hm, harr2, hpos2, hre, hfirst⟩ := ih4 hstrict
          refine ⟨List.mem_cons_of_mem i hm, harr2, hpos2, hre, ?_⟩
          intro k hk hklt harr hpos
          rcases List.mem_cons.mp hk with he | hm2
          · subst he; exact hstrict
          · exact hfirst k hm2 hklt harr hpos
        · have hr := ih3 heq
          refine ⟨?_, ?_, ?_, ?_, ?_⟩
          · rw [hr]; exact List.mem_cons_self i is
          · rw [hr]; exact hc.1
          · rw [hr]; exact hc.2.2
          · rw [hr]
          · intro k hk hklt _ _
            rw [hr] at hklt
            rcases List.mem_cons.mp hk with he | hm2
            · subst he; exact absurd hklt (lt_irrefl _)
            · exact absurd hklt (Nat.not_lt.mpr (Nat.le_of_lt (hlt k hm2)))
    · rw [scanIdx, if_neg hc]
      obtain ⟨ih1, ih2, ih3, ih4⟩ := ih acc hpw2
      have hge : (getP ps i).arrivalTime ≤ ct → 0 < getI rem i → acc.1 ≤ getI rem i := by
        intro harr hpos
        by_contra hno
        exact hc ⟨harr, lt_of_not_le hno, hpos⟩
      refine ⟨ih1, ?_, ih3, ?_⟩
      · intro k hk harr hpos
        rcases List.mem_cons.mp hk with he | hm
        · subst he; exact le_trans ih1 (hge harr hpos)
        · exact ih2 k hm harr hpos
      · intro hstrict
        obtain ⟨hm, harr2, hpos2, hre, hfirst⟩ := ih4 hstrict
        refine ⟨List.mem_cons_of_mem i hm, harr2, hpos2, hre, ?_⟩
        intro k hk hklt harr hpos
        rcases List.mem_cons.mp hk with he | hm2
        · subst he; exact lt_of_lt_of_le hstrict (hge harr hpos)
        · exact hfirst k hm2 hklt harr hpos

theorem getP_mem (l : List Process) : ∀ i, i < l.length → getP l i ∈ l := by
  induction l with
  | nil => intro i h; cases h
  | cons p l ih =>
    intro i h
    cases i with
    | zero => exact List.mem_cons_self p l
    | succ j => exact List.mem_cons_of_mem p (ih j (Nat.lt_of_succ_lt_succ h))

/-- When no process is eligible the scan returns the untouched
accumulator `(MaxInt64, currentIndex)`. -/
theorem sjfSel_no_eligible (ps : List Process) (st : SJFState)
    (hbnd : ∀ i, i < ps.length → getI st.remaining i < sentinel)
    (hnone : ∀ i, ¬ eligible ps st.remaining st.currentTime i) :
    sjfSel ps st = (sentinel, st.currentIndex) := by
  obtain ⟨h1, _, h3, h4⟩ :=
    scanIdx_spec ps st.remaining st.currentTime (List.range ps.length)
      (sentinel, st.currentIndex) (List.pairwise_lt_range ps.length)
  rcases lt_or_eq_of_le h1 with hstrict | heq
  · obtain ⟨hm, harr, hpos, _, _⟩ := h4 hstrict
    exact absurd ⟨List.mem_range.mp hm, harr, hpos⟩ (hnone _)
  · exact h3 heq

/-- When some process is eligible, the scan result names the first
eligible index attaining the minimum remaining time. -/
theorem sjfSel_eligible (ps : List Process) (st : SJFState)
    (hbnd : ∀ i, i < ps.length → getI st.remaining i < sentinel)
    (i : Nat) (hi : eligible ps st.remaining st.currentTime i) :
    (sjfSel ps st).1 < sentinel ∧
    eligible ps st.remaining st.currentTime (sjfSel ps st).2 ∧
    getI st.remaining (sjfSel ps st).2 = (sjfSel ps st).1 ∧
    (∀ k, eligible ps st.remaining st.currentTime k →
      (sjfSel ps st).1 ≤ getI st.remaining k) ∧
    (∀ k, eligible ps st.remaining st.currentTime k → k < (sjfSel ps st).2 →
      (sjfSel ps st).1 < getI st.remaining k) := by
  obtain ⟨h1, h2, h3, h4⟩ :=
    scanIdx_spec ps st.remaining st.currentTime (List.range ps.length)
      (sentinel, st.currentIndex) (List.pairwise_lt_range ps.length)
  obtain ⟨hin, harr, hpos⟩ := hi
  have hle : (sjfSel ps st).1 ≤ getI st.remaining i :=
    h2 i (List.mem_range.mpr hin) harr hpos
  have hstrict : (sjfSel ps st).1 < sentinel := lt_of_le_of_lt hle (hbnd i hin)
  obtain ⟨hm, harr2, hpos2, hre, hfirst⟩ := h4 hstrict
  refine ⟨hstrict, ⟨List.mem_range.mp hm, harr2, hpos2⟩, hre, ?_, ?_⟩
  · intro k hk
    exact h2 k (List.mem_range.mpr hk.1) hk.2.1 hk.2.2
  · intro k hk hklt
    exact hfirst k (List.mem_range.mpr hk.1) hklt hk.2.1 hk.2.2

/-- Shape of `sjfStep` when the scan found nothing (the virtual-time
jump of src/main.go lines 158-161). -/
theorem sjfStep_jump_eq (ps : List Process) (st : SJFState)
    (h : (sjfSel ps st).1 = sentinel) :
    sjfStep ps st = { st with currentTime := (getP ps st.numCompleted).arrivalTime,
                              currentIndex := (sjfSel ps st).2 } := by
  unfold sjfStep
  dsimp only
  rw [if_pos h]

/-- Shape of `sjfStep` when the scan selected index `sel.2`: one unit of
work is consumed there and the clock advances by one. -/
theorem sjfStep_tick_parts (ps : List Process) (st : SJFState)
    (h : ¬ (sjfSel ps st).1 = sentinel) :
    (sjfStep ps st).remaining =
      setL st.remaining (sjfSel ps st).2 (getI st.remaining (sjfSel ps st).2 - 1) ∧
    (sjfStep ps st).currentTime = st.currentTime + 1 ∧
    (sjfStep ps st).currentIndex = (sjfSel ps st).2 ∧
    (getI (setL st.remaining (sjfSel ps st).2 (getI st.remaining (sjfSel ps st).2 - 1))
        (sjfSel ps st).2 = 0 →
      (sjfStep ps st).numCompleted = st.numCompleted + 1 ∧
      (sjfStep ps st).schedule =
        setL st.schedule (sjfSel ps st).2 (some (sjfFinalRow ps st (sjfSel ps st).2)) ∧
      (sjfStep ps st).lastCompletionTime =
        (if st.lastCompletionTime < (sjfFinalRow ps st (sjfSel ps st).2).completion
         then (sjfFinalRow ps st (sjfSel ps st).2).completion
         else st.lastCompletionTime)) ∧
    (¬ getI (setL st.remaining (sjfSel ps st).2 (getI st.remaining (sjfSel ps st).2 - 1))
        (sjfSel ps st).2 = 0 →
      (sjfStep ps st).numCompleted = st.numCompleted ∧
      (sjfStep ps st).schedule = st.schedule ∧
      (sjfStep ps st).lastCompletionTime = st.lastCompletionTime) := by
  unfold sjfStep
  dsimp only
  rw [if_neg h]
  by_cases hz : getI (setL st.remaining (sjfSel ps st).2 (getI st.remaining (sjfSel ps st).2 - 1))
      (sjfSel ps st).2 = 0
  · rw [if_pos hz]
    exact ⟨rfl, rfl, rfl, fun _ => ⟨rfl, rfl, rfl⟩, fun hn => absurd hz hn⟩
  · rw [if_neg hz]
    exact ⟨rfl, rfl, rfl, fun hc => absurd hc hz, fun _ => ⟨rfl, rfl, rfl⟩⟩

theorem getI_setL_same (l : List Int) (i : Nat) (a : Int) (h : i < l.length) :
    getI (setL l i a) i = a :=
  getL_setL_same 0 l i a h

theorem getI_setL_ne (l : List Int) (i j : Nat) (a : Int) (h : j ≠ i) :
    getI (setL l i a) j = getI l j :=
  getL_setL_ne 0 l i j a h

theorem sjfSel_found (ps : List Process) (st : SJFState)
    (h : (sjfSel ps st).1 < sentinel) :
    eligible ps st.remaining st.currentTime (sjfSel ps st).2 ∧
    getI st.remaining (sjfSel ps st).2 = (sjfSel ps st).1 := by
  obtain ⟨h1, _, _, h4⟩ :=
    scanIdx_spec ps st.remaining st.currentTime (List.range ps.length)
      (sentinel, st.currentIndex) (List.pairwise_lt_range ps.length)
  obtain ⟨hm, harr, hpos, hre, _⟩ := h4 h
  exact ⟨⟨List.mem_range.mp hm, harr, hpos⟩, hre⟩

theorem sjfSel_le_sentinel (ps : List Process) (st : SJFState) :
    (sjfSel ps st).1 ≤ sentinel :=
  (scanIdx_spec ps st.remaining st.currentTime (List.range ps.length)
    (sentinel, st.currentIndex) (List.pairwise_lt_range ps.length)).1

theorem getP_eq_get (l : List Process) :
    ∀ (i : Nat) (h : i < l.length), getP l i = l.get ⟨i, h⟩ := by
  induction l with
  | nil => intro i h; cases h
  | cons p l ih =>
    intro i h
    cases i with
    | zero => rfl
    | succ j => exact ih j (Nat.lt_of_succ_lt_succ h)

theorem arrival_mono (ps : List Process)
    (hsort : List.Pairwise (fun a b => a.arrivalTime ≤ b.arrivalTime) ps) :
    ∀ i j, i ≤ j → j < ps.length →
      (getP ps i).arrivalTime ≤ (getP ps j).arrivalTime := by
  intro i j hij hj
  rcases Nat.lt_or_ge i j with hlt | hge
  · have hi : i < ps.length := lt_trans hlt hj
    rw [getP_eq_get ps i hi, getP_eq_get ps j hj]
    exact List.pairwise_iff_get.mp hsort ⟨i, hi⟩ ⟨j, hj⟩ hlt
  · have : i = j := Nat.le_antisymm hij hge
    subst this
    exact le_refl _

/-- At any state satisfying the invariant where no process is eligible,
the zero entries are exactly the first `numCompleted` positions, so the
process at index `numCompleted` is the first (hence earliest-arriving)
uncompleted one, and it has not arrived yet. -/
theorem sjf_jump_target (ps : List Process) (st : SJFState)
    (hsort : List.Pairwise (fun a b => a.arrivalTime ≤ b.arrivalTime) ps)
    (hinv : SJFInv ps st) (hlt : st.numCompleted < ps.length)
    (hnone : ∀ i, ¬ eligible ps st.remaining st.currentTime i) :
    0 < getI st.remaining st.numCompleted ∧
    (∀ i, i < st.numCompleted → getI st.remaining i = 0) ∧
    st.currentTime < (getP ps st.numCompleted).arrivalTime := by
  obtain ⟨hlen, _, hlb, harr, hcnt⟩ := hinv
  have hdc : ∀ i j, i ≤ j → j < st.remaining.length → getI st.remaining j = 0 →
      getI st.remaining i = 0 := by
    intro i j hij hj hz
    have hjn : j < ps.length := by rw [← hlen]; exact hj
    have hin : i < ps.length := lt_of_le_of_lt hij hjn
    by_contra hne
    have hpos : 0 < getI st.remaining i := lt_of_le_of_ne (hlb i hin) (Ne.symm hne)
    have harri : (getP ps i).arrivalTime ≤ st.currentTime :=
      le_trans (arrival_mono ps hsort i j hij hjn) (harr j hjn hz)
    exact hnone i ⟨hin, harri, hpos⟩
  have hiff := zeros_are_first st.remaining hdc
  have hkn : st.numCompleted < st.remaining.length := by rw [hlen]; exact hlt
  have hk0 : getI st.remaining st.numCompleted ≠ 0 := by
    intro hz
    have := (hiff st.numCompleted hkn).mp hz
    rw [← hcnt] at this
    exact absurd this (lt_irrefl _)
  have hkpos : 0 < getI st.remaining st.numCompleted :=
    lt_of_le_of_ne (hlb st.numCompleted hlt) (Ne.symm hk0)
  refine ⟨hkpos, ?_, ?_⟩
  · intro i hik
    have hin : i < st.remaining.length := lt_trans (by omega) hkn
    exact (hiff i hin).mpr (by rw [← hcnt]; exact hik)
  · by_contra hno
    exact hnone st.numCompleted ⟨hlt, le_of_not_lt hno, hkpos⟩

theorem getI_map_burst (ps : List Process) :
    ∀ i, i < ps.length →
      getI (ps.map (fun p => p.burstDuration)) i = (getP ps i).burstDuration := by
  induction ps with
  | nil => intro i hi; cases hi
  | cons p l ih =>
    intro i hi
    cases i with
    | zero => rfl
    | succ j => exact ih j (Nat.lt_of_succ_lt_succ hi)

theorem sjfInv_init (ps : List Process) (hpos : ∀ p ∈ ps, 0 < p.burstDuration) :
    SJFInv ps (sjfInit ps) := by
  have hget := getI_map_burst ps
  refine ⟨by simp [sjfInit], ?_, ?_, ?_, ?_⟩
  · intro i hi
    rw [show (sjfInit ps).remaining = ps.map (fun p => p.burstDuration) from rfl, hget i hi]
  · intro i hi
    rw [show (sjfInit ps).remaining = ps.map (fun p => p.burstDuration) from rfl, hget i hi]
    exact le_of_lt (hpos _ (getP_mem ps i hi))
  · intro i hi hz
    rw [show (sjfInit ps).remaining = ps.map (fun p => p.burstDuration) from rfl, hget i hi] at hz
    exact absurd hz (ne_of_gt (hpos _ (getP_mem ps i hi)))
  · have hne : ∀ m, m < (ps.map (fun p => p.burstDuration)).length →
        getI (ps.map (fun p => p.burstDuration)) m ≠ 0 := by
      intro m hm
      have hmn : m < ps.length := by simpa using hm
      rw [hget m hmn]
      exact ne_of_gt (hpos _ (getP_mem ps m hmn))
    rw [show (sjfInit ps).numCompleted = 0 from rfl,
      show (sjfInit ps).remaining = ps.map (fun p => p.burstDuration) from rfl,
      countZeros_all_ne _ hne]

theorem sjfInv_step (ps : List Process) (st : SJFState)
    (hsort : List.Pairwise (fun a b => a.arrivalTime ≤ b.arrivalTime) ps)
    (hbound : ∀ p ∈ ps, p.burstDuration < sentinel)
    (hinv : SJFInv ps st) (hlt : st.numCompleted < ps.length) :
    SJFInv ps (sjfStep ps st) := by
  obtain ⟨hlen, hub, hlb, harr, hcnt⟩ := hinv
  have hbnd : ∀ i, i < ps.length → getI st.remaining i < sentinel := fun i hi =>
    lt_of_le_of_lt (hub i hi) (hbound _ (getP_mem ps i hi))
  by_cases hsel : (sjfSel ps st).1 = sentinel
  · rw [sjfStep_jump_eq ps st hsel]
    have hnone : ∀ i, ¬ eligible ps st.remaining st.currentTime i := by
      intro i hi
      have := (sjfSel_eligible ps st hbnd i hi).1
      rw [hsel] at this
      exact absurd this (lt_irrefl _)
    obtain ⟨_, _, hct⟩ := sjf_jump_target ps st hsort ⟨hlen, hub, hlb, harr, hcnt⟩ hlt hnone
    exact ⟨hlen, hub, hlb,
      fun i hi hz => le_trans (harr i hi hz) (le_of_lt hct), hcnt⟩
  · have hfound := sjfSel_found ps st (lt_of_le_of_ne (sjfSel_le_sentinel ps st) hsel)
    obtain ⟨⟨hjn, hjarr, hjpos⟩, hjre⟩ := hfound
    obtain ⟨hrem, hct, _, hcomp, hincomp⟩ := sjfStep_tick_parts ps st hsel
    have hjlen : (sjfSel ps st).2 < st.remaining.length := by rw [hlen]; exact hjn
    have hgetj : getI (sjfStep ps st).remaining (sjfSel ps st).2 =
        getI st.remaining (sjfSel ps st).2 - 1 := by
      rw [hrem]
      exact getL_setL_same 0 st.remaining (sjfSel ps st).2 _ hjlen
    have hgetne : ∀ i, i ≠ (sjfSel ps st).2 →
        getI (sjfStep ps st).remaining i = getI st.remaining i := by
      intro i hne
      rw [hrem]
      exact getL_setL_ne 0 st.remaining (sjfSel ps st).2 i _ hne
    refine ⟨?_, ?_, ?_, ?_, ?_⟩
    · rw [hrem, setL_length]; exact hlen
    · intro i hi
      by_cases hij : i = (sjfSel ps st).2
      · rw [hij, hgetj]
        have h2 := hub (sjfSel ps st).2 hjn
        omega
      · rw [hgetne i hij]; exact hub i hi
    · intro i hi
      by_cases hij : i = (sjfSel ps st).2
      · rw [hij, hgetj]; omega
      · rw [hgetne i hij]; exact hlb i hi
    · intro i hi hz
      rw [hct]
      by_cases hij : i = (sjfSel ps st).2
      · refine le_trans ?_ (by omega : st.currentTime ≤ st.currentTime + 1)
        rw [hij]
        exact hjarr
      · rw [hgetne i hij] at hz
        exact le_trans (harr i hi hz) (by omega)
    · have hz0 : getI st.remaining (sjfSel ps st).2 ≠ 0 := ne_of_gt hjpos
      by_cases hz : getI (setL st.remaining (sjfSel ps st).2
          (getI st.remaining (sjfSel ps st).2 - 1)) (sjfSel ps st).2 = 0
      · obtain ⟨hnc, _, _⟩ := hcomp hz
        rw [hnc, hrem, countZeros_setL st.remaining (sjfSel ps st).2 _ hjlen hz0]
        rw [getI_setL_same st.remaining (sjfSel ps st).2 _ hjlen] at hz
        rw [if_pos hz, hcnt]
      · obtain ⟨hnc, _, _⟩ := hincomp hz
        rw [hnc, hrem, countZeros_setL st.remaining (sjfSel ps st).2 _ hjlen hz0]
        rw [getI_setL_same st.remaining (sjfSel ps st).2 _ hjlen] at hz
        rw [if_neg hz, hcnt]
        omega

theorem sjfReach_inv (ps : List Process) (st : SJFState)
    (hsort : List.Pairwise (fun a b => a.arrivalTime ≤ b.arrivalTime) ps)
    (hpos : ∀ p ∈ ps, 0 < p.burstDuration)
    (hbound : ∀ p ∈ ps, p.burstDuration < sentinel)
    (hreach : SJFReach ps st) : SJFInv ps st := by
  induction hreach with
  | init => exact sjfInv_init ps hpos
  | step st2 _ hlt ih => exact sjfInv_step ps st2 hsort hbound ih hlt

/-- C6: in SJF, on a batch sorted ascending by ArrivalTime (with the data
model's positive, in-range bursts), at every iteration of the loop: if
some process is eligible (arrived, unfinished), the scan selects an
eligible process whose remaining time is minimal among the eligible ones,
with ties broken in favour of the lowest array index, decrements exactly
that process's remaining time and advances the clock by one; if no
process is eligible, the state is unchanged except that currentTime jumps
directly (consuming no tick) to the ArrivalTime of the next uncompleted
process — the first index with positive remaining time, every earlier
index being complete — which lies strictly in the future. -/
theorem sjf_tick_selection (ps : List Process) (st : SJFState)
    (hsort : List.Pairwise (fun a b => a.arrivalTime ≤ b.arrivalTime) ps)
    (hpos : ∀ p ∈ ps, 0 < p.burstDuration)
    (hbound : ∀ p ∈ ps, p.burstDuration < sentinel)
    (hreach : SJFReach ps st) (hlt : st.numCompleted < ps.length) :
    ((∃ i, eligible ps st.remaining st.currentTime i) →
      eligible ps st.remaining st.currentTime (sjfSel ps st).2 ∧
      (∀ k, eligible ps st.remaining st.currentTime k →
        getI st.remaining (sjfSel ps st).2 ≤ getI st.remaining k) ∧
      (∀ k, eligible ps st.remaining st.currentTime k →
        getI st.remaining k = getI st.remaining (sjfSel ps st).2 → (sjfSel ps st).2 ≤ k) ∧
      (sjfStep ps st).currentTime = st.currentTime + 1 ∧
      (sjfStep ps st).remaining =
        setL st.remaining (sjfSel ps st).2 (getI st.remaining (sjfSel ps st).2 - 1)) ∧
    ((∀ i, ¬ eligible ps st.remaining st.currentTime i) →
      sjfStep ps st = { st with currentTime := (getP ps st.numCompleted).arrivalTime } ∧
      0 < getI st.remaining st.numCompleted ∧
      (∀ i, i < st.numCompleted → getI st.remaining i = 0) ∧
      st.currentTime < (getP ps st.numCompleted).arrivalTime) := by
  obtain ⟨hlen, hub, hlb, harr, hcnt⟩ := sjfReach_inv ps st hsort hpos hbound hreach
  have hbnd : ∀ i, i < ps.length → getI st.remaining i < sentinel := fun i hi =>
    lt_of_le_of_lt (hub i hi) (hbound _ (getP_mem ps i hi))
  constructor
  · rintro ⟨i, hi⟩
    obtain ⟨hstrict, helig, hre, hmin, hfirst⟩ := sjfSel_eligible ps st hbnd i hi
    have hne : ¬ (sjfSel ps st).1 = sentinel := ne_of_lt hstrict
    obtain ⟨hrem, hct, _, _, _⟩ := sjfStep_tick_parts ps st hne
    refine ⟨helig, ?_, ?_, hct, hrem⟩
    · intro k hk
      rw [hre]
      exact hmin k hk
    · intro k hk hkeq
      by_contra hklt2
      have hklt : k < (sjfSel ps st).2 := Nat.lt_of_not_le hklt2
      have h3 := hfirst k hk hklt
      omega
  · intro hnone
    have hself := sjfSel_no_eligible ps st hbnd hnone
    have hj := sjfStep_jump_eq ps st (by rw [hself])
    obtain ⟨hp1, hp2, hp3⟩ :=
      sjf_jump_target ps st hsort ⟨hlen, hub, hlb, harr, hcnt⟩ hlt hnone
    refine ⟨?_, hp1, hp2, hp3⟩
    rw [hj, hself]

/-- C6 witness: the eligible branch at the initial state of a concrete
one-process batch. -/
theorem sjf_tick_selection_witness :
    eligible [⟨1, 0, 2, 0⟩] (sjfInit [⟨1, 0, 2, 0⟩]).remaining
      (sjfInit [⟨1, 0, 2, 0⟩]).currentTime
      (sjfSel [⟨1, 0, 2, 0⟩] (sjfInit [⟨1, 0, 2, 0⟩])).2 ∧
    (sjfStep [⟨1, 0, 2, 0⟩] (sjfInit [⟨1, 0, 2, 0⟩])).currentTime =
      (sjfInit [⟨1, 0, 2, 0⟩]).currentTime + 1 :=
  have h := (sjf_tick_selection [⟨1, 0, 2, 0⟩] (sjfInit [⟨1, 0, 2, 0⟩])
    (by decide) (by decide) (by decide) SJFReach.init (by decide)).1
    ⟨0, by decide⟩
  ⟨h.1, h.2.2.2.1⟩

/-- C9 witness: both reordering conjuncts applied to a concrete unsorted
two-process batch. -/
theorem reorder_side_effect_witness :
    ((SJFSchedule [⟨1, 3, 1, 0⟩, ⟨2, 0, 1, 0⟩] 10).getD ([], sjfInit [])).1 =
      sortByArrival [⟨1, 3, 1, 0⟩, ⟨2, 0, 1, 0⟩] ∧
    ((SJFPrioritySchedule [⟨1, 3, 1, 0⟩, ⟨2, 0, 1, 0⟩] 10).getD
        ([], POutcome.ok (prioInit []))).1 =
      sortByArrival [⟨1, 3, 1, 0⟩, ⟨2, 0, 1, 0⟩] :=
  ⟨(reorder_side_effect [⟨1, 3, 1, 0⟩, ⟨2, 0, 1, 0⟩]).1 10 _ _ rfl,
   (reorder_side_effect [⟨1, 3, 1, 0⟩, ⟨2, 0, 1, 0⟩]).2.1 10 _ _ rfl⟩

theorem getO_setL_same (l : List (Option ScheduleRow)) (i : Nat) (a : Option ScheduleRow)
    (h : i < l.length) : getO (setL l i a) i = a :=
  getL_setL_same none l i a h

theorem getO_setL_ne (l : List (Option ScheduleRow)) (i j : Nat) (a : Option ScheduleRow)
    (h : j ≠ i) : getO (setL l i a) j = getO l j :=
  getL_setL_ne none l i j a h

theorem getO_replicate (n : Nat) : ∀ i, getO (List.replicate n none) i = none := by
  induction n with
  | zero => intro i; cases i <;> rfl
  | succ m ih =>
    intro i
    cases i with
    | zero => rfl
    | succ j => exact ih j

theorem mem_getO_index (sched : List (Option ScheduleRow)) :
    ∀ x, x ∈ sched → ∃ i, i < sched.length ∧ getO sched i = x := by
  induction sched with
  | nil => intro x h; cases h
  | cons o rest ih =>
    intro x h
    rcases List.mem_cons.mp h with he | hm
    · exact ⟨0, Nat.succ_pos _, by rw [he]; rfl⟩
    · obtain ⟨i, hi, hg⟩ := ih x hm
      exact ⟨i + 1, Nat.succ_lt_succ hi, hg⟩

theorem getO_index_mem (sched : List (Option ScheduleRow)) :
    ∀ i, i < sched.length → getO sched i ∈ sched := by
  induction sched with
  | nil => intro i h; cases h
  | cons o rest ih =>
    intro i h
    cases i with
    | zero => exact List.mem_cons_self o rest
    | succ j => exact List.mem_cons_of_mem o (ih j (Nat.lt_of_succ_lt_succ h))

theorem mem_filterMap_index (sched : List (Option ScheduleRow)) (r : ScheduleRow)
    (h : r ∈ sched.filterMap id) : ∃ i, i < sched.length ∧ getO sched i = some r := by
  rcases List.mem_filterMap.mp h with ⟨a, ha, hae⟩
  cases a with
  | none => cases hae
  | some r2 =>
    have h2 : r2 = r := by simpa using hae
    subst h2
    exact mem_getO_index sched _ ha

theorem index_mem_filterMap (sched : List (Option ScheduleRow)) (i : Nat) (r : ScheduleRow)
    (hi : i < sched.length) (h : getO sched i = some r) : r ∈ sched.filterMap id :=
  List.mem_filterMap.mpr ⟨some r, by rw [← h]; exact getO_index_mem sched i hi, rfl⟩

theorem foldl_max_le (rows : List ScheduleRow) :
    ∀ a b : Int, a ≤ b → (∀ r ∈ rows, r.completion ≤ b) →
      rows.foldl (fun x r => max x r.completion) a ≤ b := by
  induction rows with
  | nil => intro a b hab _; exact hab
  | cons r rows ih =>
    intro a b hab hall
    rw [List.foldl_cons]
    exact ih _ b (max_le hab (hall r (List.mem_cons_self r rows)))
      (fun q hq => hall q (List.mem_cons_of_mem r hq))

theorem le_foldl_max (rows : List ScheduleRow) :
    ∀ a : Int, a ≤ rows.foldl (fun x r => max x r.completion) a ∧
      ∀ r ∈ rows, r.completion ≤ rows.foldl (fun x r => max x r.completion) a := by
  induction rows with
  | nil => intro a; exact ⟨le_refl a, fun r h => absurd h (List.not_mem_nil r)⟩
  | cons r rows ih =>
    intro a
    rw [List.foldl_cons]
    obtain ⟨h1, h2⟩ := ih (max a r.completion)
    refine ⟨le_trans (le_max_left _ _) h1, ?_⟩
    intro q hq
    rcases List.mem_cons.mp hq with he | hm
    · rw [he]
      exact le_trans (le_max_right a r.completion) h1
    · exact h2 q hm

theorem countZeros_eq_length (l : List Int) :
    countZeros l = l.length → ∀ i, i < l.length → getI l i = 0 := by
  induction l with
  | nil => intro _ i hi; cases hi
  | cons r rest ih =>
    intro h i hi
    rw [List.length_cons] at h
    have hle := countZeros_le_length rest
    by_cases hr : r = 0
    · rw [countZeros, if_pos hr] at h
      cases i with
      | zero => exact hr
      | succ j => exact ih (by omega) j (Nat.lt_of_succ_lt_succ hi)
    · rw [countZeros, if_neg hr] at h
      exfalso
      omega

theorem sjfRowsInv_init (ps : List Process) (hpos : ∀ p ∈ ps, 0 < p.burstDuration) :
    SJFRowsInv ps (sjfInit ps) := by
  refine ⟨by simp [sjfInit], by simp [sjfInit], ?_, ?_, Or.inl rfl⟩
  · intro i hi
    rw [show (sjfInit ps).schedule = List.replicate ps.length none from rfl, getO_replicate]
    rw [show (sjfInit ps).remaining = ps.map (fun p => p.burstDuration) from rfl,
      getI_map_burst ps i hi]
    constructor
    · intro hs; simp at hs
    · intro hz; exact absurd hz (ne_of_gt (hpos _ (getP_mem ps i hi)))
  · intro i r hi hg
    rw [show (sjfInit ps).schedule = List.replicate ps.length none from rfl,
      getO_replicate] at hg
    cases hg

theorem sjfRowsInv_step (ps : List Process) (st : SJFState)
    (hpos : ∀ p ∈ ps, 0 < p.burstDuration)
    (harrge : ∀ p ∈ ps, 0 ≤ p.arrivalTime)
    (hinv : SJFRowsInv ps st) : SJFRowsInv ps (sjfStep ps st) := by
  obtain ⟨hslen, hrlen, hiff, hrbound, hatt⟩ := hinv
  by_cases hsel : (sjfSel ps st).1 = sentinel
  · rw [sjfStep_jump_eq ps st hsel]
    exact ⟨hslen, hrlen, hiff, hrbound, hatt⟩
  · have hfound := sjfSel_found ps st (lt_of_le_of_ne (sjfSel_le_sentinel ps st) hsel)
    obtain ⟨⟨hjn, hjarr, hjpos⟩, hjre⟩ := hfound
    obtain ⟨hrem, hct, hcidx, hcomp, hincomp⟩ := sjfStep_tick_parts ps st hsel
    have hjr : (sjfSel ps st).2 < st.remaining.length := by rw [hrlen]; exact hjn
    have hjs : (sjfSel ps st).2 < st.schedule.length := by rw [hslen]; exact hjn
    have hremj : getI (sjfStep ps st).remaining (sjfSel ps st).2 =
        getI st.remaining (sjfSel ps st).2 - 1 := by
      rw [hrem]; exact getI_setL_same _ _ _ hjr
    have hremne : ∀ i, i ≠ (sjfSel ps st).2 →
        getI (sjfStep ps st).remaining i = getI st.remaining i := by
      intro i hne; rw [hrem]; exact getI_setL_ne _ _ _ _ hne
    by_cases hz : getI (setL st.remaining (sjfSel ps st).2
        (getI st.remaining (sjfSel ps st).2 - 1)) (sjfSel ps st).2 = 0
    · obtain ⟨hnum, hsched, hlast⟩ := hcomp hz
      rw [getI_setL_same _ _ _ hjr] at hz
      have hschedj : getO (sjfStep ps st).schedule (sjfSel ps st).2 =
          some (sjfFinalRow ps st (sjfSel ps st).2) := by
        rw [hsched]; exact getO_setL_same _ _ _ hjs
      have hschedne : ∀ i, i ≠ (sjfSel ps st).2 →
          getO (sjfStep ps st).schedule i = getO st.schedule i := by
        intro i hne; rw [hsched]; exact getO_setL_ne _ _ _ _ hne
      have hjnone : getO st.schedule (sjfSel ps st).2 = none := by
        rcases ho : getO st.schedule (sjfSel ps st).2 with _ | r2
        · rfl
        · have h2 := (hiff _ hjn).mp (by rw [ho]; rfl)
          omega
      have hcpos : 0 < (sjfFinalRow ps st (sjfSel ps st).2).completion := by
        unfold sjfFinalRow
        dsimp only
        have hb := hpos _ (getP_mem ps _ hjn)
        have ha := harrge _ (getP_mem ps _ hjn)
        split <;> omega
      refine ⟨?_, ?_, ?_, ?_, ?_⟩
      · rw [hsched, setL_length]; exact hslen
      · rw [hrem, setL_length]; exact hrlen
      · intro i hi
        by_cases hij : i = (sjfSel ps st).2
        · rw [hij, hschedj, hremj]
          simp [hz]
        · rw [hschedne i hij, hremne i hij]
          exact hiff i hi
      · intro i r hi hg
        rw [hlast]
        by_cases hij : i = (sjfSel ps st).2
        · rw [hij, hschedj] at hg
          have hr : r = sjfFinalRow ps st (sjfSel ps st).2 := by
            injection hg.symm
          subst hr
          constructor
          · split
            · exact le_refl _
            · exact le_of_not_lt (by assumption)
          · exact hcpos
        · rw [hschedne i hij] at hg
          obtain ⟨hle, hpos2⟩ := hrbound i r hi hg
          refine ⟨?_, hpos2⟩
          split
          · exact le_trans hle (le_of_lt (by assumption))
          · exact hle
      · right
        by_cases hlt2 : st.lastCompletionTime < (sjfFinalRow ps st (sjfSel ps st).2).completion
        · refine ⟨(sjfSel ps st).2, sjfFinalRow ps st (sjfSel ps st).2, hjn, hschedj, ?_⟩
          rw [hlast, if_pos hlt2]
        · have hCle : (sjfFinalRow ps st (sjfSel ps st).2).completion ≤
              st.lastCompletionTime := le_of_not_lt hlt2
          have hne0 : st.lastCompletionTime ≠ 0 := by
            intro h0
            rw [h0] at hCle
            omega
          rcases hatt with h0 | ⟨i, r, hi, hg, heq⟩
          · exact absurd h0 hne0
          · have hij : i ≠ (sjfSel ps st).2 := by
              intro he
              rw [he, hjnone] at hg
              cases hg
            refine ⟨i, r, hi, by rw [hschedne i hij]; exact hg, ?_⟩
            rw [hlast, if_neg hlt2]
            exact heq
    · obtain ⟨hnum, hsched, hlast⟩ := hincomp hz
      rw [getI_setL_same _ _ _ hjr] at hz
      refine ⟨?_, ?_, ?_, ?_, ?_⟩
      · rw [hsched]; exact hslen
      · rw [hrem, setL_length]; exact hrlen
      · intro i hi
        by_cases hij : i = (sjfSel ps st).2
        · rw [hij, hsched, hremj]
          constructor
          · intro hs
            have h2 := (hiff _ hjn).mp hs
            omega
          · intro h2; exact absurd h2 hz
        · rw [hsched, hremne i hij]
          exact hiff i hi
      · intro i r hi hg
        rw [hsched] at hg
        rw [hlast]
        exact hrbound i r hi hg
      · rw [hsched, hlast]
        exact hatt

theorem sjfLoop_rowsInv (ps : List Process)
    (hpos : ∀ p ∈ ps, 0 < p.burstDuration)
    (harrge : ∀ p ∈ ps, 0 ≤ p.arrivalTime) :
    ∀ (fuel : Nat) (st st1 : SJFState), SJFRowsInv ps st →
      sjfLoop ps fuel st = some st1 → SJFRowsInv ps st1 := by
  intro fuel
  induction fuel with
  | zero =>
    intro st st1 hinv h
    unfold sjfLoop at h
    split at h
    · cases h
    · cases h; exact hinv
  | succ fuel ih =>
    intro st st1 hinv h
    unfold sjfLoop at h
    split at h
    · exact ih (sjfStep ps st) st1 (sjfRowsInv_step ps st hpos harrge hinv) h
    · cases h; exact hinv

theorem sjfLoop_reach (ps : List Process) :
    ∀ (fuel : Nat) (st st1 : SJFState), SJFReach ps st →
      sjfLoop ps fuel st = some st1 → SJFReach ps st1 := by
  intro fuel
  induction fuel with
  | zero =>
    intro st st1 hr h
    unfold sjfLoop at h
    split at h
    · cases h
    · cases h; exact hr
  | succ fuel ih =>
    intro st st1 hr h
    unfold sjfLoop at h
    split at h
    · exact ih (sjfStep ps st) st1 (SJFReach.step st hr (by assumption)) h
    · cases h; exact hr

theorem sjfLoop_end (ps : List Process) :
    ∀ (fuel : Nat) (st st1 : SJFState), sjfLoop ps fuel st = some st1 →
      ¬ st1.numCompleted < ps.length := by
  intro fuel
  induction fuel with
  | zero =>
    intro st st1 h
    unfold sjfLoop at h
    split at h
    · cases h
    · cases h; assumption
  | succ fuel ih =>
    intro st st1 h
    unfold sjfLoop at h
    split at h
    · exact ih (sjfStep ps st) st1 h
    · cases h; assumption

/-- For a completed SJF run on a non-empty valid batch, the reported
`lastCompletionTime` is exactly the largest reported CompletionTime, and
it is strictly positive. -/
theorem sjf_last_eq_max (ps0 : List Process) (fuel : Nat) (l : List Process) (st : SJFState)
    (hne : ps0 ≠ [])
    (hpos : ∀ p ∈ ps0, 0 < p.burstDuration)
    (hbound : ∀ p ∈ ps0, p.burstDuration < sentinel)
    (harrge : ∀ p ∈ ps0, 0 ≤ p.arrivalTime)
    (hrun : SJFSchedule ps0 fuel = some (l, st)) :
    st.lastCompletionTime = maxCompletion (sjfRows st) ∧ 0 < st.lastCompletionTime := by
  have hperm : (sortByArrival ps0).Perm ps0 := List.perm_insertionSort _ ps0
  have hmem : ∀ p ∈ sortByArrival ps0, p ∈ ps0 := fun p hp => hperm.mem_iff.mp hp
  have hpos2 : ∀ p ∈ sortByArrival ps0, 0 < p.burstDuration := fun p hp => hpos p (hmem p hp)
  have hbound2 : ∀ p ∈ sortByArrival ps0, p.burstDuration < sentinel :=
    fun p hp => hbound p (hmem p hp)
  have harrge2 : ∀ p ∈ sortByArrival ps0, 0 ≤ p.arrivalTime := fun p hp => harrge p (hmem p hp)
  have hsort : List.Pairwise (fun a b => a.arrivalTime ≤ b.arrivalTime) (sortByArrival ps0) := by
    haveI : IsTotal Process (fun a b => a.arrivalTime ≤ b.arrivalTime) :=
      ⟨fun a b => le_total a.arrivalTime b.arrivalTime⟩
    haveI : IsTrans Process (fun a b => a.arrivalTime ≤ b.arrivalTime) :=
      ⟨fun _ _ _ hab hbc => le_trans hab hbc⟩
    exact List.sorted_insertionSort _ ps0
  have hloop := sjf_run_eq ps0 fuel l st hrun
  have hreach := sjfLoop_reach (sortByArrival ps0) fuel _ st SJFReach.init hloop
  obtain ⟨hrlen, _, _, _, hcnt⟩ :=
    sjfReach_inv (sortByArrival ps0) st hsort hpos2 hbound2 hreach
  obtain ⟨hslen, _, hiff, hrbound, hatt⟩ :=
    sjfLoop_rowsInv (sortByArrival ps0) hpos2 harrge2 fuel _ st
      (sjfRowsInv_init _ hpos2) hloop
  have hend := sjfLoop_end (sortByArrival ps0) fuel _ st hloop
  have hn : 0 < (sortByArrival ps0).length := by
    rw [hperm.length_eq]
    exact List.length_pos.mpr hne
  have hcz : countZeros st.remaining = st.remaining.length := by
    have h1 := countZeros_le_length st.remaining
    rw [hrlen] at h1 ⊢
    omega
  have hallz : ∀ i, i < (sortByArrival ps0).length → getI st.remaining i = 0 := by
    intro i hi
    exact countZeros_eq_length st.remaining hcz i (by rw [hrlen]; exact hi)
  have hallsome : ∀ i, i < (sortByArrival ps0).length → (getO st.schedule i).isSome := by
    intro i hi
    exact (hiff i hi).mpr (hallz i hi)
  obtain ⟨r0, hr0⟩ := Option.isSome_iff_exists.mp (hallsome 0 hn)
  obtain ⟨hr0le, hr0pos⟩ := hrbound 0 r0 hn hr0
  have hlastpos : 0 < st.lastCompletionTime := lt_of_lt_of_le hr0pos hr0le
  refine ⟨le_antisymm ?_ ?_, hlastpos⟩
  · rcases hatt with h0 | ⟨i, r, hi, hg, heq⟩
    · rw [h0]
      exact (le_foldl_max (sjfRows st) 0).1
    · rw [← heq]
      exact (le_foldl_max (sjfRows st) 0).2 r
        (index_mem_filterMap st.schedule i r (by rw [hslen]; exact hi) hg)
  · refine foldl_max_le (sjfRows st) 0 st.lastCompletionTime (le_of_lt hlastpos) ?_
    intro r hr
    obtain ⟨i, hilen, hg⟩ := mem_filterMap_index st.schedule r hr
    exact (hrbound i r (by rw [← hslen]; exact hilen) hg).1

theorem fcfsLoop_last (ps : List Process) :
    ∀ st : FCFSState, ps ≠ [] →
      (fcfsLoop st ps).lastCompletionTime =
        ((fcfsLoop st ps).schedule.getLast?.getD default).completion := by
  induction ps with
  | nil => intro st h; exact absurd rfl h
  | cons p rest ih =>
    intro st _
    by_cases hr : rest = []
    · subst hr
      show (fcfsStep st p).lastCompletionTime =
        ((fcfsStep st p).schedule.getLast?.getD default).completion
      unfold fcfsStep
      dsimp only
      rw [List.getLast?_concat]
      rfl
    · show (fcfsLoop (fcfsStep st p) rest).lastCompletionTime = _
      exact ih (fcfsStep st p) hr

/-- C8 (amended): every policy reports throughput = processCount /
lastCompletionTime, but lastCompletionTime is policy-specific.  For SJF
on a non-empty batch with positive (int64-range) bursts and nonnegative
arrivals it equals the maximum reported CompletionTime and the throughput
is strictly positive; for FCFS it is the completion of the final row,
which need not be the last completion across all processes. -/
theorem throughput_amended :
    (∀ (ps0 : List Process) (fuel : Nat) (l : List Process) (st : SJFState),
      ps0 ≠ [] → (∀ p ∈ ps0, 0 < p.burstDuration) →
      (∀ p ∈ ps0, p.burstDuration < sentinel) → (∀ p ∈ ps0, 0 ≤ p.arrivalTime) →
      SJFSchedule ps0 fuel = some (l, st) →
      sjfThroughput ps0 st = (ps0.length : ℚ) / ((maxCompletion (sjfRows st)) : ℚ) ∧
      0 < sjfThroughput ps0 st) ∧
    (∀ ps0 : List Process, ps0 ≠ [] →
      fcfsThroughput ps0 =
        (ps0.length : ℚ) / (((FCFSSchedule ps0).schedule.getLast?.getD default).completion : ℚ)) := by
  constructor
  · intro ps0 fuel l st hne hpos hbound harrge hrun
    obtain ⟨hmax, hpos2⟩ := sjf_last_eq_max ps0 fuel l st hne hpos hbound harrge hrun
    have hlen : (sortByArrival ps0).length = ps0.length :=
      (List.perm_insertionSort _ ps0).length_eq
    constructor
    · rw [sjfThroughput, hlen, hmax]
    · rw [sjfThroughput]
      apply div_pos
      · rw [hlen]
        exact_mod_cast List.length_pos.mpr hne
      · exact_mod_cast hpos2
  · intro ps0 hne
    rw [fcfsThroughput, FCFSSchedule, fcfsLoop_last ps0 _ hne]

/-- C8 witness: both conjuncts applied to concrete runs. -/
theorem throughput_amended_witness :
    (sjfThroughput [⟨1, 0, 2, 0⟩]
        (((SJFSchedule [⟨1, 0, 2, 0⟩] 5).getD ([], sjfInit [])).2) =
      ((1 : ℚ)) / ((maxCompletion (sjfRows
        (((SJFSchedule [⟨1, 0, 2, 0⟩] 5).getD ([], sjfInit [])).2))) : ℚ)) ∧
    fcfsThroughput [⟨1, 0, 5, 0⟩, ⟨2, 0, 2, 0⟩] =
      ((2 : ℚ)) / (((FCFSSchedule [⟨1, 0, 5, 0⟩, ⟨2, 0, 2, 0⟩]).schedule.getLast?.getD
        default).completion : ℚ) := by
  constructor
  · have h := (throughput_amended.1 [⟨1, 0, 2, 0⟩] 5
      ((SJFSchedule [⟨1, 0, 2, 0⟩] 5).getD ([], sjfInit [])).1
      ((SJFSchedule [⟨1, 0, 2, 0⟩] 5).getD ([], sjfInit [])).2
      (by decide) (by decide) (by decide) (by decide) rfl).1
    simpa using h
  · have h := throughput_amended.2 [⟨1, 0, 5, 0⟩, ⟨2, 0, 2, 0⟩] (by decide)
    simpa using h

theorem eligExists_iff (ps : List Process) (st : SJFState) :
    eligExists ps st = true ↔ ∃ i, eligible ps st.remaining st.currentTime i := by
  unfold eligExists
  rw [List.any_eq_true]
  constructor
  · rintro ⟨i, _, hd⟩
    exact ⟨i, of_decide_eq_true hd⟩
  · rintro ⟨i, hi⟩
    exact ⟨i, List.mem_range.mpr hi.1, decide_eq_true hi⟩

theorem sumToNat_setL (l : List Int) :
    ∀ (i : Nat) (a : Int), i < l.length →
      sumToNat (setL l i a) + (getI l i).toNat = sumToNat l + a.toNat := by
  induction l with
  | nil => intro i a h; cases h
  | cons r rest ih =>
    intro i a h
    cases i with
    | zero =>
      show a.toNat + sumToNat rest + r.toNat = r.toNat + sumToNat rest + a.toNat
      omega
    | succ j =>
      have := ih j a (Nat.lt_of_succ_lt_succ h)
      show r.toNat + sumToNat (setL rest j a) + (getI rest j).toNat =
        r.toNat + sumToNat rest + a.toNat
      omega

theorem toNat_le_sumToNat (l : List Int) :
    ∀ i, i < l.length → (getI l i).toNat ≤ sumToNat l := by
  induction l with
  | nil => intro i h; cases h
  | cons r rest ih =>
    intro i h
    cases i with
    | zero => show r.toNat ≤ r.toNat + sumToNat rest; omega
    | succ j =>
      have := ih j (Nat.lt_of_succ_lt_succ h)
      show (getI rest j).toNat ≤ r.toNat + sumToNat rest
      omega

/-- Each SJF iteration strictly decreases the measure. -/
theorem sjfStep_measure_lt (ps : List Process) (st : SJFState)
    (hsort : List.Pairwise (fun a b => a.arrivalTime ≤ b.arrivalTime) ps)
    (hpos : ∀ p ∈ ps, 0 < p.burstDuration)
    (hbound : ∀ p ∈ ps, p.burstDuration < sentinel)
    (hinv : SJFInv ps st) (hlt : st.numCompleted < ps.length) :
    sjfMeasure ps (sjfStep ps st) < sjfMeasure ps st := by
  obtain ⟨hlen, hub, hlb, harr, hcnt⟩ := hinv
  have hbnd : ∀ i, i < ps.length → getI st.remaining i < sentinel := fun i hi =>
    lt_of_le_of_lt (hub i hi) (hbound _ (getP_mem ps i hi))
  by_cases he : ∃ i, eligible ps st.remaining st.currentTime i
  · obtain ⟨i, hi⟩ := he
    obtain ⟨hstrict, ⟨hjn, hjarr, hjpos⟩, hjre, _, _⟩ := sjfSel_eligible ps st hbnd i hi
    obtain ⟨hrem, _, _, _, _⟩ := sjfStep_tick_parts ps st (ne_of_lt hstrict)
    have hjr : (sjfSel ps st).2 < st.remaining.length := by rw [hlen]; exact hjn
    have hsum := sumToNat_setL st.remaining (sjfSel ps st).2
      (getI st.remaining (sjfSel ps st).2 - 1) hjr
    have hsum2 : sumToNat (sjfStep ps st).remaining + 1 = sumToNat st.remaining := by
      rw [hrem]
      omega
    have hb : eligExists ps st = true := (eligExists_iff ps st).mpr ⟨i, hi⟩
    unfold sjfMeasure
    have e0 : (if eligExists ps st = true then (0 : Nat) else 1) = 0 := by
      simp [hb]
    have hsplit : (if eligExists ps (sjfStep ps st) = true then (0 : Nat) else 1) ≤ 1 := by
      split <;> omega
    rw [e0]
    omega
  · have hnone : ∀ i, ¬ eligible ps st.remaining st.currentTime i := by
      intro i hi; exact he ⟨i, hi⟩
    have hself := sjfSel_no_eligible ps st hbnd hnone
    have hj := sjfStep_jump_eq ps st (by rw [hself])
    obtain ⟨hp1, _, _⟩ :=
      sjf_jump_target ps st hsort ⟨hlen, hub, hlb, harr, hcnt⟩ hlt hnone
    have hb : eligExists ps st = false := by
      rcases hbe : eligExists ps st with _ | _
      · rfl
      · exact absurd ((eligExists_iff ps st).mp hbe) he
    have hct : (sjfStep ps st).currentTime = (getP ps st.numCompleted).arrivalTime := by
      rw [hj]
    have hremeq : (sjfStep ps st).remaining = st.remaining := by rw [hj]
    have hb2 : eligExists ps (sjfStep ps st) = true := by
      rw [eligExists_iff]
      exact ⟨st.numCompleted, hlt, le_of_eq hct.symm, by rw [hremeq]; exact hp1⟩
    unfold sjfMeasure
    have e0 : (if eligExists ps st = true then (0 : Nat) else 1) = 1 := by
      simp [hb]
    have e1 : (if eligExists ps (sjfStep ps st) = true then (0 : Nat) else 1) = 0 := by
      simp [hb2]
    rw [e0, e1, hremeq]
    omega

theorem sjfLoop_isSome (ps : List Process)
    (hsort : List.Pairwise (fun a b => a.arrivalTime ≤ b.arrivalTime) ps)
    (hpos : ∀ p ∈ ps, 0 < p.burstDuration)
    (hbound : ∀ p ∈ ps, p.burstDuration < sentinel) :
    ∀ (fuel : Nat) (st : SJFState), SJFReach ps st → sjfMeasure ps st < fuel →
      (sjfLoop ps fuel st).isSome := by
  intro fuel
  induction fuel with
  | zero => intro st _ hm; exact absurd hm (Nat.not_lt_zero _)
  | succ fuel ih =>
    intro st hr hm
    unfold sjfLoop
    split
    · apply ih (sjfStep ps st) (SJFReach.step st hr (by assumption))
      have hdec := sjfStep_measure_lt ps st hsort hpos hbound
        (sjfReach_inv ps st hsort hpos hbound hr) (by assumption)
      omega
    · rfl

theorem sumB_setL (l : List Process) :
    ∀ (i : Nat) (a : Process), i < l.length →
      sumBurstToNat (setL l i a) + (getP l i).burstDuration.toNat =
        sumBurstToNat l + a.burstDuration.toNat := by
  induction l with
  | nil => intro i a h; cases h
  | cons p rest ih =>
    intro i a h
    cases i with
    | zero =>
      show a.burstDuration.toNat + sumBurstToNat rest + p.burstDuration.toNat =
        p.burstDuration.toNat + sumBurstToNat rest + a.burstDuration.toNat
      omega
    | succ j =>
      have := ih j a (Nat.lt_of_succ_lt_succ h)
      show p.burstDuration.toNat + sumBurstToNat (setL rest j a) +
          (getP rest j).burstDuration.toNat =
        p.burstDuration.toNat + sumBurstToNat rest + a.burstDuration.toNat
      omega

theorem getP_setL_same (l : List Process) (i : Nat) (a : Process) (h : i < l.length) :
    getP (setL l i a) i = a :=
  getL_setL_same default l i a h

theorem getP_setL_ne (l : List Process) (i j : Nat) (a : Process) (h : j ≠ i) :
    getP (setL l i a) j = getP l j :=
  getL_setL_ne default l i j a h

theorem sumB_swapL (l : List Process) (i j : Nat) (hi : i < l.length) (hj : j < l.length) :
    sumBurstToNat (swapL l i j) = sumBurstToNat l := by
  unfold swapL
  have h1 := sumB_setL l i (getP l j) hi
  have hlen1 : (setL l i (getP l j)).length = l.length := setL_length l i _
  have h2 := sumB_setL (setL l i (getP l j)) j (getP l i) (by rw [hlen1]; exact hj)
  have hg : getP (setL l i (getP l j)) j = getP l j := by
    by_cases hji : j = i
    · rw [hji]; exact getP_setL_same l i _ hi
    · exact getP_setL_ne l i j _ hji
  rw [hg] at h2
  omega

theorem allPos_setL (l : List Process) (i : Nat) (a : Process)
    (hl : heapAllPos l) (ha : 1 ≤ a.burstDuration) : heapAllPos (setL l i a) := by
  intro q hq
  rcases mem_setL l i a q hq with hm | he
  · exact hl q hm
  · rw [he]; exact ha

theorem allPos_swapL (l : List Process) (i j : Nat) (hi : i < l.length) (hj : j < l.length)
    (hl : heapAllPos l) : heapAllPos (swapL l i j) := by
  unfold swapL
  exact allPos_setL _ j _ (allPos_setL l i _ hl (hl _ (getP_mem l j hj)))
    (hl _ (getP_mem l i hi))

theorem swapL_length (l : List Process) (i j : Nat) :
    (swapL l i j).length = l.length := by
  unfold swapL
  rw [setL_length, setL_length]

theorem heapUpFuel_facts :
    ∀ (fuel : Nat) (h : List Process) (j : Nat), j < h.length →
      sumBurstToNat (heapUpFuel fuel h j) = sumBurstToNat h ∧
      (heapUpFuel fuel h j).length = h.length ∧
      (heapAllPos h → heapAllPos (heapUpFuel fuel h j)) := by
  intro fuel
  induction fuel with
  | zero => intro h j _; exact ⟨rfl, rfl, fun x => x⟩
  | succ fuel ih =>
    intro h j hj
    cases j with
    | zero => exact ⟨rfl, rfl, fun x => x⟩
    | succ j2 =>
      rw [heapUpFuel]
      split
      · have hi2 : j2 / 2 < h.length := lt_trans (by omega) hj
        have hlen := swapL_length h (j2 / 2) (j2 + 1)
        obtain ⟨hs, hl, hp⟩ := ih (swapL h (j2 / 2) (j2 + 1)) (j2 / 2) (by omega)
        refine ⟨?_, ?_, ?_⟩
        · rw [hs, sumB_swapL h _ _ hi2 hj]
        · rw [hl, hlen]
        · intro hall
          exact hp (allPos_swapL h _ _ hi2 hj hall)
      · exact ⟨rfl, rfl, fun x => x⟩

theorem heapDownFuel_facts :
    ∀ (fuel : Nat) (h : List Process) (i n : Nat), n ≤ h.length →
      (2 * i + 1 < n → i < h.length) →
      sumBurstToNat (heapDownFuel fuel h i n) = sumBurstToNat h ∧
      (heapDownFuel fuel h i n).length = h.length ∧
      (heapAllPos h → heapAllPos (heapDownFuel fuel h i n)) := by
  intro fuel
  induction fuel with
  | zero => intro h i n _ _; exact ⟨rfl, rfl, fun x => x⟩
  | succ fuel ih =>
    intro h i n hn hi
    rw [heapDownFuel]
    dsimp only
    split
    · have hj1 : 2 * i + 1 < n := by assumption
      have hiL : i < h.length := hi hj1
      set j := if 2 * i + 1 + 1 < n ∧ hLess (getP h (2 * i + 1 + 1)) (getP h (2 * i + 1)) = true
        then 2 * i + 1 + 1 else 2 * i + 1 with hjdef
      have hjn : j < n := by
        rw [hjdef]
        split <;> omega
      have hjL : j < h.length := lt_of_lt_of_le hjn hn
      have hlen := swapL_length h i j
      obtain ⟨hs, hl, hp⟩ := ih (swapL h i j) j n (by rw [hlen]; exact hn)
        (fun _ => by rw [hlen]; exact hjL)
      split
      · refine ⟨?_, ?_, ?_⟩
        · rw [hs, sumB_swapL h i j hiL hjL]
        · rw [hl, hlen]
        · intro hall
          exact hp (allPos_swapL h i j hiL hjL hall)
      · exact ⟨rfl, rfl, fun x => x⟩
    · exact ⟨rfl, rfl, fun x => x⟩

theorem sumB_append_single (h : List Process) (x : Process) :
    sumBurstToNat (h ++ [x]) = sumBurstToNat h + x.burstDuration.toNat := by
  induction h with
  | nil => show x.burstDuration.toNat + 0 = 0 + x.burstDuration.toNat; omega
  | cons p rest ih =>
    show p.burstDuration.toNat + sumBurstToNat (rest ++ [x]) = _
    rw [ih]
    show _ = p.burstDuration.toNat + sumBurstToNat rest + x.burstDuration.toNat
    omega

theorem heapPush_sum (h : List Process) (x : Process) :
    sumBurstToNat (heapPush h x) = sumBurstToNat h + x.burstDuration.toNat := by
  unfold heapPush heapUp
  have hlen : h.length < (h ++ [x]).length := by simp
  obtain ⟨hs, _, _⟩ := heapUpFuel_facts (h.length + 1) (h ++ [x]) h.length hlen
  rw [hs, sumB_append_single]

theorem heapPush_allPos (h : List Process) (x : Process)
    (hh : heapAllPos h) (hx : 1 ≤ x.burstDuration) : heapAllPos (heapPush h x) := by
  unfold heapPush heapUp
  have hlen : h.length < (h ++ [x]).length := by simp
  obtain ⟨_, _, hp⟩ := heapUpFuel_facts (h.length + 1) (h ++ [x]) h.length hlen
  apply hp
  intro q hq
  rcases List.mem_append.mp hq with hm | hm
  · exact hh q hm
  · rw [List.mem_singleton.mp hm]; exact hx

theorem sumB_dropLast (l : List Process) :
    l ≠ [] → sumBurstToNat l =
      sumBurstToNat l.dropLast + (getP l (l.length - 1)).burstDuration.toNat := by
  induction l with
  | nil => intro h; exact absurd rfl h
  | cons p rest ih =>
    intro _
    by_cases hr : rest = []
    · subst hr
      show p.burstDuration.toNat + 0 = 0 + p.burstDuration.toNat
      omega
    · have hlen : 0 < rest.length := List.length_pos.mpr hr
      have hdl : (p :: rest).dropLast = p :: rest.dropLast := by
        cases rest with
        | nil => exact absurd rfl hr
        | cons q rest2 => rfl
      have hget : getP (p :: rest) ((p :: rest).length - 1) =
          getP rest (rest.length - 1) := by
        show getP (p :: rest) (rest.length + 1 - 1) = _
        have : rest.length + 1 - 1 = (rest.length - 1) + 1 := by omega
        rw [this]
        rfl
      rw [hdl, hget]
      show p.burstDuration.toNat + sumBurstToNat rest =
        p.burstDuration.toNat + sumBurstToNat rest.dropLast +
          (getP rest (rest.length - 1)).burstDuration.toNat
      have := ih hr
      omega

theorem heapPop_spec (h : List Process) (hne : h ≠ []) :
    ∃ p rest, heapPop h = some (p, rest) ∧
      p.burstDuration.toNat + sumBurstToNat rest = sumBurstToNat h ∧
      (heapAllPos h → 1 ≤ p.burstDuration ∧ heapAllPos rest) := by
  have hlen : 0 < h.length := List.length_pos.mpr hne
  obtain ⟨hs, hl, hp⟩ := heapDownFuel_facts (h.length - 1) (swapL h 0 (h.length - 1)) 0
      (h.length - 1)
      (by rw [swapL_length]; omega)
      (fun hcond => by rw [swapL_length]; omega)
  have hswap_len : (swapL h 0 (h.length - 1)).length = h.length := swapL_length _ _ _
  have hswap_sum : sumBurstToNat (swapL h 0 (h.length - 1)) = sumBurstToNat h :=
    sumB_swapL h 0 (h.length - 1) hlen (by omega)
  set h2 := heapDownFuel (h.length - 1) (swapL h 0 (h.length - 1)) 0 (h.length - 1) with hh2
  have hlen2 : h2.length = h.length := by rw [hh2, hl, hswap_len]
  have hsum2 : sumBurstToNat h2 = sumBurstToNat h := by rw [hh2, hs, hswap_sum]
  have hne2 : h2 ≠ [] := by
    intro h0
    rw [h0] at hlen2
    simp at hlen2
    omega
  have hdrop := sumB_dropLast h2 hne2
  refine ⟨getP h2 (h.length - 1), h2.dropLast, ?_, ?_, ?_⟩
  · cases h with
    | nil => exact absurd rfl hne
    | cons q rest =>
      unfold heapPop heapDown
      rfl
  · rw [← hlen2]
    omega
  · intro hall
    have hall2 : heapAllPos h2 := by
      rw [hh2]
      exact hp (allPos_swapL h 0 (h.length - 1) hlen (by omega) hall)
    constructor
    · exact hall2 _ (getP_mem h2 (h.length - 1) (by rw [hlen2]; omega))
    · intro q hq
      exact hall2 q ((List.dropLast_sublist h2).subset hq)

theorem drop_eq_getP_cons (ps : List Process) :
    ∀ i, i < ps.length → ps.drop i = getP ps i :: ps.drop (i + 1) := by
  induction ps with
  | nil => intro i h; cases h
  | cons p rest ih =>
    intro i h
    cases i with
    | zero => rfl
    | succ j => exact ih j (Nat.lt_of_succ_lt_succ h)

theorem pushArrivalsFuel_facts (ps : List Process)
    (hpos : ∀ p ∈ ps, 0 < p.burstDuration) :
    ∀ (fuel : Nat) (st : PState), heapAllPos st.heap →
      heapAllPos (pushArrivalsFuel ps fuel st).heap ∧
      prioMeasure ps (pushArrivalsFuel ps fuel st) = prioMeasure ps st ∧
      (pushArrivalsFuel ps fuel st).currentTime = st.currentTime := by
  intro fuel
  induction fuel with
  | zero => intro st hall; exact ⟨hall, rfl, rfl⟩
  | succ fuel ih =>
    intro st hall
    rw [pushArrivalsFuel]
    split
    · have hidx : st.insertedIdx < ps.length := by
        have hcond : st.insertedIdx < ps.length ∧
            (getP ps st.insertedIdx).arrivalTime = st.currentTime := by assumption
        exact hcond.1
      have hall2 : heapAllPos (heapPush st.heap (getP ps st.insertedIdx)) :=
        heapPush_allPos _ _ hall (hpos _ (getP_mem ps _ hidx))
      obtain ⟨h1, h2, h3⟩ := ih { st with
        heap := heapPush st.heap (getP ps st.insertedIdx),
        insertedIdx := st.insertedIdx + 1 } hall2
      refine ⟨h1, ?_, h3⟩
      rw [h2]
      unfold prioMeasure
      dsimp only
      rw [heapPush_sum, drop_eq_getP_cons ps st.insertedIdx hidx]
      show _ = sumBurstToNat st.heap +
        ((getP ps st.insertedIdx).burstDuration.toNat + sumBurstToNat (ps.drop (st.insertedIdx + 1)))
      omega
    · exact ⟨hall, rfl, rfl⟩

theorem pushArrivals_facts (ps : List Process)
    (hpos : ∀ p ∈ ps, 0 < p.burstDuration) (st : PState) (hall : heapAllPos st.heap) :
    heapAllPos (pushArrivals ps st).heap ∧
    prioMeasure ps (pushArrivals ps st) = prioMeasure ps st ∧
    (pushArrivals ps st).currentTime = st.currentTime := by
  unfold pushArrivals
  exact pushArrivalsFuel_facts ps hpos _ st hall

theorem prioTick_facts (ps : List Process) (st : PState) (p0 : Process) (h1 : List Process)
    (hall1 : heapAllPos h1) (hp1 : 1 ≤ p0.burstDuration) :
    heapAllPos (prioTick ps st p0 h1).heap ∧
    (prioTick ps st p0 h1).insertedIdx = st.insertedIdx ∧
    sumBurstToNat (prioTick ps st p0 h1).heap =
      sumBurstToNat h1 + (p0.burstDuration - 1).toNat := by
  unfold prioTick
  dsimp only
  split
  · have hb : p0.burstDuration - 1 = 0 := by assumption
    refine ⟨hall1, rfl, ?_⟩
    show sumBurstToNat h1 = sumBurstToNat h1 + (p0.burstDuration - 1).toNat
    rw [hb]
    rfl
  · have hb : ¬ p0.burstDuration - 1 = 0 := by assumption
    refine ⟨?_, rfl, ?_⟩
    · refine heapPush_allPos _ _ hall1 ?_
      show (1 : Int) ≤ p0.burstDuration - 1
      omega
    · show sumBurstToNat (heapPush h1 { p0 with burstDuration := p0.burstDuration - 1 }) = _
      rw [heapPush_sum]

theorem prioIter_cases (ps : List Process) (st : PState)
    (hpos : ∀ p ∈ ps, 0 < p.burstDuration) (hall : heapAllPos st.heap) :
    (∃ s, prioIter ps st = PIter.done s) ∨ (∃ s, prioIter ps st = PIter.crashed s) ∨
    (∃ s, prioIter ps st = PIter.cont s ∧ heapAllPos s.heap ∧
      prioMeasure ps s + 1 = prioMeasure ps st) := by
  obtain ⟨hall1, hmeas1, _⟩ := pushArrivals_facts ps hpos st hall
  by_cases hdone : (pushArrivals ps st).heap.isEmpty = true ∧
      ¬ (pushArrivals ps st).insertedIdx < ps.length
  · left
    refine ⟨pushArrivals ps st, ?_⟩
    unfold prioIter
    dsimp only
    rw [if_pos hdone]
  · by_cases hemp : (pushArrivals ps st).heap.isEmpty = true
    · right; left
      have hnil : (pushArrivals ps st).heap = [] := List.isEmpty_iff.mp hemp
      refine ⟨{ pushArrivals ps st with
        currentTime := (getP ps (pushArrivals ps st).insertedIdx).arrivalTime }, ?_⟩
      unfold prioIter
      dsimp only
      rw [if_neg hdone, if_pos hemp]
      dsimp only
      rw [hnil]
      rfl
    · right; right
      have hne : (pushArrivals ps st).heap ≠ [] := by
        intro h0
        rw [h0] at hemp
        exact hemp rfl
      obtain ⟨p, rest, hpop, hsum, hposp⟩ := heapPop_spec _ hne
      obtain ⟨hp1, hallrest⟩ := hposp hall1
      obtain ⟨halltick, hins, hsumtick⟩ :=
        prioTick_facts ps (pushArrivals ps st) p rest hallrest hp1
      refine ⟨prioTick ps (pushArrivals ps st) p rest, ?_, halltick, ?_⟩
      · unfold prioIter
        dsimp only
        rw [if_neg hdone, if_neg hemp, hpop]
      · unfold prioMeasure at hmeas1 ⊢
        rw [hins]
        omega

theorem prioLoop_isSome (ps : List Process) (hpos : ∀ p ∈ ps, 0 < p.burstDuration) :
    ∀ (fuel : Nat) (st : PState), heapAllPos st.heap → prioMeasure ps st < fuel →
      (prioLoop ps fuel st).isSome := by
  intro fuel
  induction fuel with
  | zero => intro st _ hm; exact absurd hm (Nat.not_lt_zero _)
  | succ fuel ih =>
    intro st hall hm
    rw [prioLoop]
    rcases prioIter_cases ps st hpos hall with ⟨s, hc⟩ | ⟨s, hc⟩ | ⟨s, hc, hall2, hm2⟩
    · rw [hc]
      rfl
    · rw [hc]
      rfl
    · rw [hc]
      exact ih s hall2 (by omega)

theorem sumToNat_eq_sum (l : List Int) : sumToNat l = (l.map Int.toNat).sum := by
  induction l with
  | nil => rfl
  | cons r rest ih => simp [sumToNat, ih]

theorem sumBurstToNat_eq (l : List Process) :
    sumBurstToNat l = sumToNat (l.map (fun p => p.burstDuration)) := by
  induction l with
  | nil => rfl
  | cons p rest ih =>
    show p.burstDuration.toNat + sumBurstToNat rest = p.burstDuration.toNat + _
    rw [ih]

theorem totalBurst_sort (ps0 : List Process) :
    totalBurstToNat (sortByArrival ps0) = totalBurstToNat ps0 := by
  unfold totalBurstToNat
  rw [sumToNat_eq_sum, sumToNat_eq_sum]
  exact List.Perm.sum_eq
    (((List.perm_insertionSort _ ps0).map (fun p => p.burstDuration)).map Int.toNat)

/-- C10: on any batch with nonnegative arrivals and positive (int64-range)
burst durations, all four scheduling runs halt with total simulated work
bounded by the sum of the burst durations: SJF with fuel two ticks per
burst unit, Priority with fuel one tick per burst unit (halting either
normally or at the documented empty-heap pop, cf. C2), while FCFS visits
each process exactly once and Round-Robin produces only its title. -/
theorem schedulers_terminate (ps0 : List Process)
    (harrge : ∀ p ∈ ps0, 0 ≤ p.arrivalTime)
    (hpos : ∀ p ∈ ps0, 0 < p.burstDuration)
    (hbound : ∀ p ∈ ps0, p.burstDuration < sentinel) :
    (SJFSchedule ps0 (2 * totalBurstToNat ps0 + 2)).isSome ∧
    (SJFPrioritySchedule ps0 (totalBurstToNat ps0 + 2)).isSome ∧
    (FCFSSchedule ps0).schedule.length = ps0.length ∧
    RRSchedule ps0 = ([], [], ps0) := by
  have hperm := List.perm_insertionSort
    (fun (a b : Process) => a.arrivalTime ≤ b.arrivalTime) ps0
  have hmem : ∀ p ∈ sortByArrival ps0, p ∈ ps0 := fun p hp => hperm.mem_iff.mp hp
  have hpos2 : ∀ p ∈ sortByArrival ps0, 0 < p.burstDuration := fun p hp => hpos p (hmem p hp)
  have hbound2 : ∀ p ∈ sortByArrival ps0, p.burstDuration < sentinel :=
    fun p hp => hbound p (hmem p hp)
  have hsort : List.Pairwise (fun a b => a.arrivalTime ≤ b.arrivalTime) (sortByArrival ps0) := by
    haveI : IsTotal Process (fun a b => a.arrivalTime ≤ b.arrivalTime) :=
      ⟨fun a b => le_total a.arrivalTime b.arrivalTime⟩
    haveI : IsTrans Process (fun a b => a.arrivalTime ≤ b.arrivalTime) :=
      ⟨fun _ _ _ hab hbc => le_trans hab hbc⟩
    exact List.sorted_insertionSort _ ps0
  have hsum : sumToNat ((sortByArrival ps0).map (fun p => p.burstDuration)) =
      totalBurstToNat ps0 := by
    rw [show sumToNat ((sortByArrival ps0).map (fun p => p.burstDuration)) =
      totalBurstToNat (sortByArrival ps0) from rfl, totalBurst_sort]
  refine ⟨?_, ?_, fcfs_schedule_length ps0, rfl⟩
  · have hms : sjfMeasure (sortByArrival ps0) (sjfInit (sortByArrival ps0)) <
        2 * totalBurstToNat ps0 + 2 := by
      unfold sjfMeasure
      rw [show (sjfInit (sortByArrival ps0)).remaining =
        (sortByArrival ps0).map (fun p => p.burstDuration) from rfl, hsum]
      split <;> omega
    have h := sjfLoop_isSome (sortByArrival ps0) hsort hpos2 hbound2
      (2 * totalBurstToNat ps0 + 2) (sjfInit (sortByArrival ps0)) SJFReach.init hms
    unfold SJFSchedule
    dsimp only
    cases hl : sjfLoop (sortByArrival ps0) (2 * totalBurstToNat ps0 + 2)
        (sjfInit (sortByArrival ps0)) with
    | none => rw [hl] at h; cases h
    | some s => rfl
  · unfold SJFPrioritySchedule
    dsimp only
    split
    · rfl
    · have hallnil : heapAllPos (prioInit (sortByArrival ps0)).heap := by
        intro q hq
        cases hq
      have hmp : prioMeasure (sortByArrival ps0) (prioInit (sortByArrival ps0)) <
          totalBurstToNat ps0 + 2 := by
        unfold prioMeasure
        rw [show (prioInit (sortByArrival ps0)).heap = [] from rfl,
          show (prioInit (sortByArrival ps0)).insertedIdx = 0 from rfl,
          List.drop_zero]
        have h2 : sumBurstToNat (sortByArrival ps0) = totalBurstToNat ps0 := by
          rw [sumBurstToNat_eq]
          exact hsum
        rw [h2]
        show 0 + totalBurstToNat ps0 < totalBurstToNat ps0 + 2
        omega
      have h := prioLoop_isSome (sortByArrival ps0) hpos2 (totalBurstToNat ps0 + 2)
        (prioInit (sortByArrival ps0)) hallnil hmp
      cases hl : prioLoop (sortByArrival ps0) (totalBurstToNat ps0 + 2)
          (prioInit (sortByArrival ps0)) with
      | none => rw [hl] at h; cases h
      | some s => rfl

/-- C10 witness: the two fueled runs succeed on a concrete batch. -/
theorem schedulers_terminate_witness :
    (SJFSchedule [⟨1, 0, 2, 0⟩] (2 * totalBurstToNat [⟨1, 0, 2, 0⟩] + 2)).isSome ∧
    (SJFPrioritySchedule [⟨1, 0, 2, 0⟩] (totalBurstToNat [⟨1, 0, 2, 0⟩] + 2)).isSome :=
  have h := schedulers_terminate [⟨1, 0, 2, 0⟩] (by decide) (by decide) (by decide)
  ⟨h.1, h.2.1⟩
